import Mathlib

/-!
Verification of the WebGL backend core of the graph transpiler:

* `_simplify_orders` / `_optimize_loop_structure`
  (graph_transpiler/webdnn/backend/webgl/kernels/elementwise_add.py), and
* `InsertChannelModeConversion.optimize` and its helpers
  (graph_transpiler/webdnn/backend/webgl/optimize_rules/insert_channel_mode_conversion.py).

Modelling conventions.

* An `Axis` is an opaque, globally unique identifier; we model it as a `Nat`
  and model Python's object freshness by allocating ids above every id
  occurring in the input (`axis_scalar` and the `X{counter}` axes of the
  merge loop are allocated from a counter that starts above all input ids).
* A `Variable` is identified by its position in the input list.  The source
  keeps `orders[v]` (a tuple of axes) and `shape_dicts[v]` (an `AxisKeyDict`
  from axis to extent) in lockstep; we fuse the two into a single list of
  `(axis, extent)` rows per variable.  `orders[v].axes` is the `map Prod.fst`
  projection and a `shape_dicts[v][a]` lookup is an association-list lookup.
* Python `set` values of `Variable`s are modelled as duplicate-free lists of
  positions and compared by mutual membership, their iteration used only in
  order-insensitive ways (`any`, per-element updates), exactly as the source
  uses them.
* The merge loop is written with explicit fuel (`var_dict` shrinks by one
  key per merge, so `|var_dict| + 1` rounds can never be cut short); it also
  returns a ghost log recording, for every merge performed, the state of the
  orders at that moment and the two merged axes.
-/

namespace WebGL

/-- An axis identifier (`webdnn.graph.axis.Axis`); object identity is
modelled by a numeric id. -/
abbrev Axis := Nat

/-- One `(axis, extent)` row of a variable: its order entry paired with its
extent in the shape dictionary. -/
abbrev AxisRow := Axis × Nat

/-- A variable's simplified order together with its extents. -/
abbrev VOrder := List AxisRow

/-- The per-variable state of `_simplify_orders`: the fused
`orders[v]` / `shape_dicts[v]` data, indexed by the variable's position in
the input list. -/
abbrev St := List VOrder

/-- A Python `set` of variables, as a duplicate-free list of positions. -/
abbrev VarSet := List Nat

/-- The `var_dict : AxisKeyDict[Set[Variable]]` of `_simplify_orders`:
an insertion-ordered association list from axis to the set of variables
containing that axis. -/
abbrev VarDict := List (Axis × VarSet)

/-- The projection `orders[v].axes`: the axes of a fused row list. -/
def axesOf (v : VOrder) : List Axis := v.map Prod.fst

/-- The size `v.size`: the product of the extents of a row list. -/
def prodExt (v : VOrder) : Nat := (v.map Prod.snd).prod

/-- The largest axis id occurring in the input variables (used to model
freshness of newly created `Axis` objects). -/
def maxAxisId (varList : St) : Nat :=
  ((varList.map axesOf).flatten).foldr max 0

/-- The single sentinel axis `axis_scalar = Axis("Scalar")` created once per
call of `_simplify_orders`; freshness is modelled by an id above every input
id. -/
def axis_scalar (varList : St) : Axis := maxAxisId varList + 1

/-- The first phase of `_simplify_orders` for one variable: remove all axes
whose extent is `1`; if no axis survives and the variable's size is `1`,
assign the sentinel scalar axis with extent `1`. -/
def dropUnitAxes (scal : Axis) (v : VOrder) : VOrder :=
  let nv := v.filter (fun p => p.2 != 1)
  if nv.isEmpty && (prodExt v == 1) then [(scal, 1)] else nv

/-- The state after the unit-axis removal phase of `_simplify_orders`. -/
def simplifyInit (varList : St) : St :=
  varList.map (dropUnitAxes (axis_scalar varList))

/-- The update `var_dict[axis].add(v)` preceded by the `axis in var_dict` test:
add variable `i` to the set registered for axis `a`, creating the entry if
absent. -/
def addVar (i : Nat) (a : Axis) : VarDict → VarDict
  | [] => [(a, [i])]
  | (b, vs) :: rest =>
    if b = a then (b, if i ∈ vs then vs else vs ++ [i]) :: rest
    else (b, vs) :: addVar i a rest

/-- Register variable `i` for every axis in the given axis list (the inner
`for axis in orders[v].axes` loop of the `var_dict` construction). -/
def addAxes (i : Nat) (axs : List Axis) (vd : VarDict) : VarDict :=
  axs.foldl (fun vd a => addVar i a vd) vd

/-- Build `var_dict`: for each variable (by position), register it for every
axis of its simplified order. -/
def buildVd (st : St) : VarDict :=
  st.enum.foldl (fun vd iv => addAxes iv.1 (axesOf iv.2) vd) []

/-- Look up the variable set registered for an axis in `var_dict`. -/
def lookupVS : VarDict → Axis → Option VarSet
  | [], _ => none
  | p :: rest, a => if p.1 = a then some p.2 else lookupVS rest a

/-- Python set equality (`vars1 != vars2`), on our list representation:
mutual membership. -/
def sameSetB (xs ys : VarSet) : Bool :=
  xs.all (fun i => ys.contains i) && ys.all (fun i => xs.contains i)

/-- The index of the first occurrence of `a` in a list of axes (the length
when absent). -/
def idxOfA : List Axis → Axis → Nat
  | [], _ => 0
  | b :: rest, a => if b = a then 0 else idxOfA rest a + 1

/-- An association-list lookup on `(axis, extent)` rows (the
`shape_dict[a]` / `stride_dict[a]` dictionary access). -/
def lookupExt : List (Axis × Nat) → Axis → Option Nat
  | [], _ => none
  | p :: rest, a => if p.1 = a then some p.2 else lookupExt rest a

/-- The lookup `orders[v].axes_dict[a]`: the index of axis `a` in variable `i`'s
current order.  (On an axis not present the source would raise `KeyError`;
`idxOfA` returns the length instead, which the guard can only ever
see on states an actual run never produces.) -/
def axIdx (st : St) (i : Nat) (a : Axis) : Nat :=
  idxOfA (axesOf (st.getD i [])) a

/-- The merge guard of `_simplify_orders` (line 80): the two axes' variable
sets are equal and, in every variable of the set, `a2` sits immediately
after `a1`. -/
def guardOk (st : St) (a1 : Axis) (vs1 : VarSet) (a2 : Axis) (vs2 : VarSet) : Bool :=
  sameSetB vs1 vs2 && vs1.all (fun i => axIdx st i a1 + 1 == axIdx st i a2)

/-- The inner `for axis2, vars2 in var_dict.items()` loop: the first `a2`
distinct from `a1` that passes the merge guard. -/
def findInner (st : St) (a1 : Axis) (vs1 : VarSet) : VarDict → Option Axis
  | [] => none
  | (a2, vs2) :: rest =>
    if a1 != a2 && guardOk st a1 vs1 a2 vs2 then some a2
    else findInner st a1 vs1 rest

/-- The outer `for axis1, vars1 in var_dict.items()` loop: the first pair
of axes passing the merge guard, in nested iteration order. -/
def findOuter (st : St) (full : VarDict) : VarDict → Option (Axis × VarSet × Axis)
  | [] => none
  | (a1, vs1) :: rest =>
    match findInner st a1 vs1 full with
    | some a2 => some (a1, vs1, a2)
    | none => findOuter st full rest

/-- The per-variable effect of one merge (source lines 89-96): the new axis
replaces `a1` and `a2` in the order, in `a1`'s former position, with extent
`shape_dict[a1] * shape_dict[a2]`; `a1` and `a2` leave the shape dictionary. -/
def spliceVar (a1 a2 axisNew : Axis) (v : VOrder) : VOrder :=
  let i1 := idxOfA (axesOf v) a1
  let i2 := idxOfA (axesOf v) a2
  let sA := (lookupExt v a1).getD 0
  let sB := (lookupExt v a2).getD 0
  v.take i1 ++ [(axisNew, sA * sB)] ++ v.drop (i2 + 1)

/-- Apply `spliceVar` to every variable in `vs1` (the `for v in vars1` loop
of the merge), walking the state with its positional index. -/
def applyMergeGo (vs1 : VarSet) (a1 a2 axisNew : Axis) : Nat → St → St
  | _, [] => []
  | i, v :: rest =>
    (if i ∈ vs1 then spliceVar a1 a2 axisNew v else v) ::
      applyMergeGo vs1 a1 a2 axisNew (i + 1) rest

/-- The state update of one merge. -/
def applyMerge (vs1 : VarSet) (a1 a2 axisNew : Axis) (st : St) : St :=
  applyMergeGo vs1 a1 a2 axisNew 0 st

/-- The deletion `del var_dict[axis]`: remove the (unique) entry with the given key. -/
def eraseKey (a : Axis) : VarDict → VarDict
  | [] => []
  | (b, vs) :: rest => if b = a then rest else (b, vs) :: eraseKey a rest

/-- The `while flag_continue` merge loop of `_simplify_orders`.  Each round
looks for a mergeable pair; on success it mints the fresh axis `X{counter}`,
rewrites every affected variable, registers the new axis and deletes the two
old ones, then restarts the scan.  The fourth component is a ghost log of
`(state before the merge, axis1, axis2)`. -/
def mergeLoop : Nat → VarDict → St → Nat → VarDict × St × Nat × List (St × Axis × Axis)
  | 0, vd, st, c => (vd, st, c, [])
  | fuel + 1, vd, st, c =>
    match findOuter st vd vd with
    | none => (vd, st, c, [])
    | some (a1, vs1, a2) =>
      let st' := applyMerge vs1 a1 a2 c st
      let vd' := eraseKey a2 (eraseKey a1 (vd ++ [(c, vs1)]))
      match mergeLoop fuel vd' st' (c + 1) with
      | (vdf, stf, cf, log) => (vdf, stf, cf, (st, a1, a2) :: log)

/-- The function `_simplify_orders`: simplified orders and shapes (fused per variable),
together with the ghost merge log.  Each merge deletes two `var_dict` keys
and adds one, so `|var_dict| + 1` rounds of fuel are never exhausted. -/
def _simplify_orders (varList : St) : St × List (St × Axis × Axis) :=
  let st0 := simplifyInit varList
  let vd0 := buildVd st0
  match mergeLoop (vd0.length + 1) vd0 st0 (axis_scalar varList + 1) with
  | (_, stf, _, log) => (stf, log)

/-- The dimensionality `v.ndim` of the original (unsimplified) variable `i`. -/
def origNdim (varList : St) (i : Nat) : Nat := (varList.getD i []).length

/-- The shape list `shapes[v]`: the extents of variable `i` listed along its simplified
order. -/
def shapesOf (st : St) (i : Nat) : List Nat := (st.getD i []).map Prod.snd

/-- The stride list `strides[v] = [mul(shapes[v][i+1:]) for i in range(v.ndim)]`
(note: `range(v.ndim)` uses the *original* dimensionality). -/
def stridesOf (varList : St) (st : St) (i : Nat) : List Nat :=
  (List.range (origNdim varList i)).map (fun k => ((shapesOf st i).drop (k + 1)).prod)

/-- The stride dictionary `stride_dicts[v] = AxisKeyDict(orders[v].axes, strides[v])`; the
`AxisKeyDict` constructor pairs keys with values, truncating at the shorter
list. -/
def strideDictOf (varList : St) (st : St) (i : Nat) : List (Axis × Nat) :=
  List.zip (axesOf (st.getD i [])) (stridesOf varList st i)

/-- Stable insertion of `i` into an index list ascending by `key`
(ties keep earlier-inserted elements first, as Python's stable sort does). -/
def insertIdx (key : Nat → Nat) (i : Nat) : List Nat → List Nat
  | [] => [i]
  | j :: rest => if key i < key j then i :: j :: rest else j :: insertIdx key i rest

/-- The sort `sorted(variables, key=lambda v: orders[v].ndim)` on variable positions:
a stable sort by key. -/
def sortIdx (key : Nat → Nat) (l : List Nat) : List Nat :=
  l.foldl (fun acc i => insertIdx key i acc) []

/-- The accumulated global axis sequence of the re-ordering phase:
`axes += [axis for axis in orders[v].axes if axis not in axes]` over the
varList sorted by ascending simplified dimensionality. -/
def globalAxes (varList : St) (st : St) : List Axis :=
  (sortIdx (fun i => (st.getD i []).length) (List.range varList.length)).foldl
    (fun axes i => axes ++ ((axesOf (st.getD i [])).filter (fun a => !(axes.contains a)))) []

/-- The final re-ordered order of variable `i`: the global axis sequence
restricted to the variable's own (simplified) axes. -/
def finalOrder (varList : St) (st : St) (i : Nat) : List Axis :=
  (globalAxes varList st).filter (fun a => (axesOf (st.getD i [])).contains a)

/-- The result of `_optimize_loop_structure`: re-ordered orders, shape
dictionaries and stride dictionaries, each listed per input variable. -/
structure LoopStructure where
  orders : List (List Axis)
  shape_dicts : St
  stride_dicts : List (List (Axis × Nat))
deriving DecidableEq

/-- The function `_optimize_loop_structure`: simplify the orders, derive shapes and
row-major strides from the simplified orders, then re-order every variable's
order along the accumulated global axis sequence.  (The stride dictionaries
are built *before* the re-ordering and are not recomputed afterwards.) -/
def _optimize_loop_structure (varList : St) : LoopStructure :=
  let st := (_simplify_orders varList).1
  { orders := (List.range varList.length).map (finalOrder varList st)
  , shape_dicts := st
  , stride_dicts := (List.range varList.length).map (strideDictOf varList st) }

/-- Soundness condition of one merge of `_simplify_orders`, relative to the
orders at the moment the merge is performed: the set of variables whose
order contains `a1` equals the set whose order contains `a2`, and in every
such order `a2` sits at the position immediately after `a1`. -/
def MergeSound (st : St) (a1 a2 : Axis) : Prop :=
  ∀ i, i < st.length →
    ((a1 ∈ axesOf (st.getD i []) ↔ a2 ∈ axesOf (st.getD i [])) ∧
     (a1 ∈ axesOf (st.getD i []) →
       idxOfA (axesOf (st.getD i [])) a1 + 1 = idxOfA (axesOf (st.getD i [])) a2))

/-- The invariant carried through the merge loop of `_simplify_orders`,
relative to the post-unit-drop state `st0`: the `var_dict` entries are
exactly the membership sets of the current orders, all orders are
duplicate-free, every axis id (in the state and among the keys) is below
the fresh-name counter, the keys are distinct, and per variable the extent
product is preserved, the dimensionality never grows, and a variable that
started as a single row is untouched. -/
structure LoopInv (st0 : St) (vd : VarDict) (st : St) (c : Nat) : Prop where
  len_eq : st.length = st0.length
  acc : ∀ p ∈ vd, ∀ i, i ∈ p.2 ↔ (i < st.length ∧ p.1 ∈ axesOf (st.getD i []))
  nodup : ∀ i, i < st.length → (axesOf (st.getD i [])).Nodup
  freshSt : ∀ i, i < st.length → ∀ a ∈ axesOf (st.getD i []), a < c
  freshVd : ∀ p ∈ vd, p.1 < c
  keysNodup : (vd.map Prod.fst).Nodup
  prodEq : ∀ i, i < st.length → prodExt (st.getD i []) = prodExt (st0.getD i [])
  lenLe : ∀ i, i < st.length → (st.getD i []).length ≤ (st0.getD i []).length
  scalKeep : ∀ i, i < st.length → ∀ x : AxisRow,
    st0.getD i [] = [x] → st.getD i [] = [x]

/-- The property stated by the specification for the stride dictionaries of
`_optimize_loop_structure`, written from the spec's words for comparison
with the code: every variable's stride dictionary is row-major with respect
to that variable's *final (re-ordered)* order, i.e. each axis's stride
equals the product of the extents of the axes strictly after it in the
final order (so in particular the last axis has stride `1`). -/
def strideRowMajorWrtFinal (varList : St) : Bool :=
  (List.range varList.length).all (fun i =>
    ((_optimize_loop_structure varList).orders.getD i []).all (fun a =>
      lookupExt ((_optimize_loop_structure varList).stride_dicts.getD i []) a
        == some ((((_optimize_loop_structure varList).orders.getD i []).drop
              (idxOfA ((_optimize_loop_structure varList).orders.getD i []) a + 1)).map
            (fun b =>
              (lookupExt ((_optimize_loop_structure varList).shape_dicts.getD i []) b).getD
                0)).prod))

/-! ## The channel-mode conversion pass

An arena model of the graph of `insert_channel_mode_conversion.py`:
varList and operators live in lists and are addressed by their index;
an operator references varList by id under string parameter names.
The `ChannelMode` attribute is stored on the variable. -/

/-- The enumeration `ChannelModeEnum` of `webdnn.backend.webgl.attributes.channel_mode`. -/
inductive ChannelModeEnum
  | R
  | RGBA
deriving DecidableEq

/-- The operator classification the pass dispatches on: the exempt `Sgemm`,
the two conversion operators, and every other (generic) operator type. -/
inductive OpKind
  | Sgemm
  | ConvertRGBAtoR
  | ConvertRtoRGBA
  | Generic
deriving DecidableEq

/-- A graph variable: shape, order and channel-mode attribute.
`Modelled from the spec:` `webdnn.graph.variable.Variable` is not under
`src/`; per the data model a Variable carries an order, extents and a
packing-format attribute (default `R`). -/
structure GVar where
  shape : List Nat
  order : List Nat
  mode : ChannelModeEnum
deriving DecidableEq

/-- A graph operator: its kind and its named input/output variable
references.  `Modelled from the spec:` `webdnn.graph.operator.Operator` is
not under `src/`; per the data model an operator maps parameter names to
input and output Variables. -/
structure Oper where
  kind : OpKind
  inputs : List (String × Nat)
  outputs : List (String × Nat)
deriving DecidableEq

/-- The graph as an arena: varList and operators addressed by index. -/
structure Graph where
  vars : List GVar
  ops : List Oper
deriving DecidableEq

def defaultGVar : GVar := ⟨[], [], ChannelModeEnum.R⟩

def defaultOper : Oper := ⟨OpKind.Generic, [], []⟩

/-- The parameter name `x0`. -/
def nameX0 : String := "x0"

/-- The parameter name `x1`. -/
def nameX1 : String := "x1"

/-- The parameter name `y`. -/
def nameY : String := "y"

/-- The accessor `ChannelMode.get(v)`: the variable's channel-mode attribute. -/
def ChannelMode_get (g : Graph) (vid : Nat) : ChannelModeEnum :=
  (g.vars.getD vid defaultGVar).mode

/-- Look up a named variable reference (`op.inputs[var_name]`). -/
def lookupName : List (String × Nat) → String → Option Nat
  | [], _ => none
  | p :: rest, n => if p.1 = n then some p.2 else lookupName rest n

/-- The rewiring `op.replace_input(v, v_new)` / `op.replace_output(v, v_new)` on one
reference list.  `Modelled from the spec:` these `Operator` methods are not
under `src/`; per the spec they rewire the operator's references from the
old Variable to the new one (every name bound to the old Variable). -/
def replaceRefs (old new : Nat) (l : List (String × Nat)) : List (String × Nat) :=
  l.map (fun p => if p.2 = old then (p.1, new) else p)

/-- The helper `_replace_input`: if the referenced input variable already has the
target mode, do nothing; otherwise create a conversion operator consuming
the existing variable and producing a fresh variable of the target mode
(`ConvertRtoRGBA(None)(v)` resp. `ConvertRGBAtoR(None)(v)`), and rewire the
operator's input reference to the fresh variable. -/
def _replace_input (g : Graph) (opIdx : Nat) (varName : String)
    (target : ChannelModeEnum) : Graph × Bool :=
  let op := g.ops.getD opIdx defaultOper
  match lookupName op.inputs varName with
  | none => (g, false)
  | some v =>
    if ChannelMode_get g v = target then (g, false)
    else
      let vv := g.vars.getD v defaultGVar
      let vNewId := g.vars.length
      let vNew : GVar := ⟨vv.shape, vv.order, target⟩
      let convKind := if target = ChannelModeEnum.RGBA then OpKind.ConvertRtoRGBA
                      else OpKind.ConvertRGBAtoR
      let conv : Oper := ⟨convKind, [(nameX0, v)], [(nameY, vNewId)]⟩
      let ops1 := g.ops.set opIdx { op with inputs := replaceRefs v vNewId op.inputs }
      ({ vars := g.vars ++ [vNew], ops := ops1 ++ [conv] }, true)

/-- The helper `_replace_output`: if the referenced output variable already has the
target mode, do nothing; otherwise create `v_new = Variable(v.shape,
v.order)` with the target mode as the operator's new output, build the
conversion consuming `v_new` (whose own fresh result has the conversion's
produced mode), and let that result take over the original variable's
identity (`.replace(v)` redirects every reference to the fresh result onto
`v`). -/
def _replace_output (g : Graph) (opIdx : Nat) (varName : String)
    (target : ChannelModeEnum) : Graph × Bool :=
  let op := g.ops.getD opIdx defaultOper
  match lookupName op.outputs varName with
  | none => (g, false)
  | some v =>
    if ChannelMode_get g v = target then (g, false)
    else
      let vv := g.vars.getD v defaultGVar
      let vNewId := g.vars.length
      let vNew : GVar := ⟨vv.shape, vv.order, target⟩
      let fId := g.vars.length + 1
      let convKind := if target = ChannelModeEnum.RGBA then OpKind.ConvertRGBAtoR
                      else OpKind.ConvertRtoRGBA
      let fMode := if target = ChannelModeEnum.RGBA then ChannelModeEnum.R
                   else ChannelModeEnum.RGBA
      let fVar : GVar := ⟨vv.shape, vv.order, fMode⟩
      let conv : Oper := ⟨convKind, [(nameX0, vNewId)], [(nameY, fId)]⟩
      let ops1 := g.ops.set opIdx { op with outputs := replaceRefs v vNewId op.outputs }
      let ops2 := ops1 ++ [conv]
      let ops3 := ops2.map (fun o =>
        { o with inputs := replaceRefs fId v o.inputs
               , outputs := replaceRefs fId v o.outputs })
      ({ vars := g.vars ++ [vNew, fVar], ops := ops3 }, true)

/-- The generator consumed by `any(...)` in `_replace_input_all`:
process the names left to right, stopping at the first successful
replacement (Python's `any` short-circuits). -/
def _replace_input_any : Graph → Nat → ChannelModeEnum → List String → Graph × Bool
  | g, _, _, [] => (g, false)
  | g, opIdx, target, n :: rest =>
    let r := _replace_input g opIdx n target
    if r.2 then r else _replace_input_any r.1 opIdx target rest

/-- The helper `_replace_input_all(op, target) = any(_replace_input(op, var_name,
target) for var_name in op.inputs.keys())`. -/
def _replace_input_all (g : Graph) (opIdx : Nat) (target : ChannelModeEnum) : Graph × Bool :=
  _replace_input_any g opIdx target ((g.ops.getD opIdx defaultOper).inputs.map Prod.fst)

/-- The generator consumed by `any(...)` in `_replace_output_all`. -/
def _replace_output_any : Graph → Nat → ChannelModeEnum → List String → Graph × Bool
  | g, _, _, [] => (g, false)
  | g, opIdx, target, n :: rest =>
    let r := _replace_output g opIdx n target
    if r.2 then r else _replace_output_any r.1 opIdx target rest

/-- The helper `_replace_output_all(op, target) = any(_replace_output(op, var_name,
target) for var_name in op.outputs.keys())`. -/
def _replace_output_all (g : Graph) (opIdx : Nat) (target : ChannelModeEnum) : Graph × Bool :=
  _replace_output_any g opIdx target ((g.ops.getD opIdx defaultOper).outputs.map Prod.fst)

/-- The per-operator body of `InsertChannelModeConversion.optimize`:
`Sgemm` is exempt; a conversion operator has its input and output forced to
its declared consumed/produced modes; every other operator has all inputs
and outputs forced to `R`. -/
def optimizeStep (acc : Graph × Bool) (i : Nat) : Graph × Bool :=
  let g := acc.1
  let op := g.ops.getD i defaultOper
  match op.kind with
  | OpKind.Sgemm => acc
  | OpKind.ConvertRGBAtoR =>
    let r1 := _replace_input g i nameX0 ChannelModeEnum.RGBA
    let r2 := _replace_output r1.1 i nameY ChannelModeEnum.R
    (r2.1, acc.2 || r1.2 || r2.2)
  | OpKind.ConvertRtoRGBA =>
    let r1 := _replace_input g i nameX0 ChannelModeEnum.R
    let r2 := _replace_output r1.1 i nameY ChannelModeEnum.RGBA
    (r2.1, acc.2 || r1.2 || r2.2)
  | OpKind.Generic =>
    let r1 := _replace_input_all g i ChannelModeEnum.R
    let r2 := _replace_output_all r1.1 i ChannelModeEnum.R
    (r2.1, acc.2 || r1.2 || r2.2)

/-- The pass `InsertChannelModeConversion.optimize`: one pass over the operators
present when the pass starts, returning the graph and the changed flag.
`Modelled from the spec:` `traverse.listup_operators` is not under `src/`;
per the spec it yields an order covering all operators present at the start
of the pass (operators spliced in mid-pass are only seen by later
invocations), and the order across operators is not semantically
significant; we use index order. -/
def optimize (g : Graph) : Graph × Bool :=
  (List.range g.ops.length).foldl optimizeStep (g, false)

/-! ## The ElementwiseAdd uniforms -/

/-- The scalar uniform `W` of the `elementwise_add` handler:
`y.size if y.size < 1024 else 1024`. -/
def elementwise_add_W (ysize : Nat) : Nat :=
  if ysize < 1024 then ysize else 1024

/-- The scalar uniform `H` of the `elementwise_add` handler:
`(y.size + 1024 - 1) // 1024`. -/
def elementwise_add_H (ysize : Nat) : Nat :=
  (ysize + 1024 - 1) / 1024

/-! ## Derived notions used in the claim statements -/

/-- The operators of `g` that reference variable `v` as an output
(the producers of `v`). -/
def producers (g : Graph) (v : Nat) : List Nat :=
  (List.range g.ops.length).filter
    (fun j => ((g.ops.getD j defaultOper).outputs.map Prod.snd).contains v)

/-- The first parameter name in the given key list whose referenced input
variable does not already carry the target mode (names whose lookup fails
are skipped, mirroring that the key list is always the operator's own key
set).  This is the name at which the short-circuiting `any(...)` of
`_replace_input_all` stops. -/
def firstNonConforming (g : Graph) (opIdx : Nat) (target : ChannelModeEnum) :
    List String → Option String
  | [] => none
  | n :: rest =>
    match lookupName (g.ops.getD opIdx defaultOper).inputs n with
    | none => firstNonConforming g opIdx target rest
    | some v =>
      if ChannelMode_get g v = target then firstNonConforming g opIdx target rest
      else some n

/-- A generic operator with two `RGBA` inputs and an `R` output: the input
used to refute the claim that one invocation of the pass forces *every*
input reference of an operator to `R`. -/
def graphTwoRGBA : Graph :=
  { vars := [⟨[4], [0], ChannelModeEnum.RGBA⟩, ⟨[4], [0], ChannelModeEnum.RGBA⟩,
             ⟨[4], [0], ChannelModeEnum.R⟩]
  , ops := [⟨OpKind.Generic, [(nameX0, 0), (nameX1, 1)], [(nameY, 2)]⟩] }

/-- A generic producer writing an `RGBA` variable that one consumer reads:
the witness input for the output-splice claims. -/
def graphOutSplice : Graph :=
  { vars := [⟨[2, 3], [0, 1], ChannelModeEnum.RGBA⟩]
  , ops := [⟨OpKind.Generic, [], [(nameY, 0)]⟩, ⟨OpKind.Generic, [(nameX0, 0)], []⟩] }

/-- A graph on which the pass is already converged: a generic operator with
all references in mode `R`, a properly-bracketed `ConvertRtoRGBA`, and an
exempt `Sgemm`.  Witness input for the convergence claim. -/
def graphConverged : Graph :=
  { vars := [⟨[2], [0], ChannelModeEnum.R⟩, ⟨[2], [0], ChannelModeEnum.R⟩,
             ⟨[2], [0], ChannelModeEnum.R⟩, ⟨[2], [0], ChannelModeEnum.RGBA⟩]
  , ops := [⟨OpKind.Generic, [(nameX0, 0)], [(nameY, 1)]⟩,
            ⟨OpKind.ConvertRtoRGBA, [(nameX0, 2)], [(nameY, 3)]⟩,
            ⟨OpKind.Sgemm, [(nameX0, 3)], [(nameY, 0)]⟩] }

/-- The converged condition the pass checks for operator `i` when it reports
no change: a conversion operator's input/output carry its declared
consumed/produced modes, and a generic operator's named references all
carry mode `R`. -/
def StepOK (g : Graph) (i : Nat) : Prop :=
  ((g.ops.getD i defaultOper).kind = OpKind.ConvertRGBAtoR →
    (∀ v, lookupName (g.ops.getD i defaultOper).inputs nameX0 = some v →
      ChannelMode_get g v = ChannelModeEnum.RGBA) ∧
    (∀ v, lookupName (g.ops.getD i defaultOper).outputs nameY = some v →
      ChannelMode_get g v = ChannelModeEnum.R)) ∧
  ((g.ops.getD i defaultOper).kind = OpKind.ConvertRtoRGBA →
    (∀ v, lookupName (g.ops.getD i defaultOper).inputs nameX0 = some v →
      ChannelMode_get g v = ChannelModeEnum.R) ∧
    (∀ v, lookupName (g.ops.getD i defaultOper).outputs nameY = some v →
      ChannelMode_get g v = ChannelModeEnum.RGBA)) ∧
  ((g.ops.getD i defaultOper).kind = OpKind.Generic →
    (∀ n ∈ (g.ops.getD i defaultOper).inputs.map Prod.fst, ∀ v,
      lookupName (g.ops.getD i defaultOper).inputs n = some v →
      ChannelMode_get g v = ChannelModeEnum.R) ∧
    (∀ n ∈ (g.ops.getD i defaultOper).outputs.map Prod.fst, ∀ v,
      lookupName (g.ops.getD i defaultOper).outputs n = some v →
      ChannelMode_get g v = ChannelModeEnum.R))

/-! ## Basic lemmas about the channel-mode helpers -/

theorem mem_of_lookupName {l : List (String × Nat)} {n : String} {v : Nat}
    (h : lookupName l n = some v) : (n, v) ∈ l := by
  induction l with
  | nil => simp [lookupName] at h
  | cons p rest ih =>
    rw [lookupName] at h
    by_cases hp : p.1 = n
    · rw [if_pos hp] at h
      cases p
      simp_all
    · rw [if_neg hp] at h
      exact List.mem_cons_of_mem _ (ih h)

theorem replaceRefs_of_not_ref {l : List (String × Nat)} {k v : Nat}
    (h : ∀ p ∈ l, p.2 ≠ k) : replaceRefs k v l = l := by
  induction l with
  | nil => rfl
  | cons p rest ih =>
    have h1 : p.2 ≠ k := h p (List.mem_cons_self p rest)
    have h2 := ih (fun q hq => h q (List.mem_cons_of_mem p hq))
    simp only [replaceRefs, List.map_cons] at h2 ⊢
    rw [if_neg h1, h2]

theorem _replace_input_none {g : Graph} {opIdx : Nat} {n : String}
    {target : ChannelModeEnum}
    (h : lookupName (g.ops.getD opIdx defaultOper).inputs n = none) :
    _replace_input g opIdx n target = (g, false) := by
  simp only [_replace_input]
  rw [h]

theorem _replace_input_conforming {g : Graph} {opIdx : Nat} {n : String}
    {target : ChannelModeEnum} {v : Nat}
    (h : lookupName (g.ops.getD opIdx defaultOper).inputs n = some v)
    (hm : ChannelMode_get g v = target) :
    _replace_input g opIdx n target = (g, false) := by
  simp only [_replace_input]
  rw [h]
  simp [hm]

theorem _replace_input_changed {g : Graph} {opIdx : Nat} {n : String}
    {target : ChannelModeEnum} {v : Nat}
    (h : lookupName (g.ops.getD opIdx defaultOper).inputs n = some v)
    (hm : ChannelMode_get g v ≠ target) :
    (_replace_input g opIdx n target).2 = true := by
  simp only [_replace_input]
  rw [h]
  simp [hm]

theorem _replace_output_none {g : Graph} {opIdx : Nat} {n : String}
    {target : ChannelModeEnum}
    (h : lookupName (g.ops.getD opIdx defaultOper).outputs n = none) :
    _replace_output g opIdx n target = (g, false) := by
  simp only [_replace_output]
  rw [h]

theorem _replace_output_conforming {g : Graph} {opIdx : Nat} {n : String}
    {target : ChannelModeEnum} {v : Nat}
    (h : lookupName (g.ops.getD opIdx defaultOper).outputs n = some v)
    (hm : ChannelMode_get g v = target) :
    _replace_output g opIdx n target = (g, false) := by
  simp only [_replace_output]
  rw [h]
  simp [hm]

/-! ## Claim C9: the output-splice intermediate keeps shape and order -/

/-- C9: when `_replace_output` splices (the output variable's mode differs
from the target), the fresh intermediate variable it installs as the
operator's new output — allocated at index `g.vars.length` — is constructed
with exactly the original output variable's shape and order, and only its
channel mode is the (new) target mode. -/
theorem _replace_output_keeps_shape_order (g : Graph) (opIdx : Nat) (varName : String)
    (target : ChannelModeEnum) (v : Nat)
    (hv : lookupName (g.ops.getD opIdx defaultOper).outputs varName = some v)
    (hm : ChannelMode_get g v ≠ target) :
    (_replace_output g opIdx varName target).1.vars[g.vars.length]? =
      some ⟨(g.vars.getD v defaultGVar).shape, (g.vars.getD v defaultGVar).order, target⟩ := by
  simp only [_replace_output, hv, if_neg hm]
  rw [List.getElem?_append_right (Nat.le_refl _)]
  simp

/-- Witness for C9 at a concrete graph: the producer's `RGBA` output of
shape `[2, 3]` and order `[0, 1]` is split, and the fresh variable at index
`1` is `⟨[2, 3], [0, 1], R⟩`. -/
theorem _replace_output_keeps_shape_order_witness :
    ChannelMode_get graphOutSplice 0 ≠ ChannelModeEnum.R ∧
    (_replace_output graphOutSplice 0 nameY ChannelModeEnum.R).1.vars[graphOutSplice.vars.length]? =
      some ⟨(graphOutSplice.vars.getD 0 defaultGVar).shape,
            (graphOutSplice.vars.getD 0 defaultGVar).order, ChannelModeEnum.R⟩ :=
  ⟨by decide,
   _replace_output_keeps_shape_order graphOutSplice 0 nameY ChannelModeEnum.R 0
     (by decide) (by decide)⟩

/-- The full shape of a splicing `_replace_output` call, with every piece
spelled out. -/
theorem _replace_output_eq {g : Graph} {opIdx : Nat} {varName : String}
    {target : ChannelModeEnum} {v : Nat}
    (hv : lookupName (g.ops.getD opIdx defaultOper).outputs varName = some v)
    (hm : ChannelMode_get g v ≠ target) :
    _replace_output g opIdx varName target =
      ({ vars := g.vars ++
          [{ shape := (g.vars.getD v defaultGVar).shape
           , order := (g.vars.getD v defaultGVar).order
           , mode := target },
           { shape := (g.vars.getD v defaultGVar).shape
           , order := (g.vars.getD v defaultGVar).order
           , mode := if target = ChannelModeEnum.RGBA then ChannelModeEnum.R
                     else ChannelModeEnum.RGBA }]
       , ops := List.map
            (fun o => { kind := o.kind
                      , inputs := replaceRefs (g.vars.length + 1) v o.inputs
                      , outputs := replaceRefs (g.vars.length + 1) v o.outputs })
            (g.ops.set opIdx
              { kind := (g.ops.getD opIdx defaultOper).kind
              , inputs := (g.ops.getD opIdx defaultOper).inputs
              , outputs := replaceRefs v g.vars.length
                  (g.ops.getD opIdx defaultOper).outputs } ++
             [{ kind := if target = ChannelModeEnum.RGBA then OpKind.ConvertRGBAtoR
                        else OpKind.ConvertRtoRGBA
              , inputs := [(nameX0, g.vars.length)]
              , outputs := [(nameY, g.vars.length + 1)] }]) },
       true) := by
  have h1 : _replace_output g opIdx varName target =
      if ChannelMode_get g v = target then (g, false) else
      ({ vars := g.vars ++
          [{ shape := (g.vars.getD v defaultGVar).shape
           , order := (g.vars.getD v defaultGVar).order
           , mode := target },
           { shape := (g.vars.getD v defaultGVar).shape
           , order := (g.vars.getD v defaultGVar).order
           , mode := if target = ChannelModeEnum.RGBA then ChannelModeEnum.R
                     else ChannelModeEnum.RGBA }]
       , ops := List.map
            (fun o => { kind := o.kind
                      , inputs := replaceRefs (g.vars.length + 1) v o.inputs
                      , outputs := replaceRefs (g.vars.length + 1) v o.outputs })
            (g.ops.set opIdx
              { kind := (g.ops.getD opIdx defaultOper).kind
              , inputs := (g.ops.getD opIdx defaultOper).inputs
              , outputs := replaceRefs v g.vars.length
                  (g.ops.getD opIdx defaultOper).outputs } ++
             [{ kind := if target = ChannelModeEnum.RGBA then OpKind.ConvertRGBAtoR
                        else OpKind.ConvertRtoRGBA
              , inputs := [(nameX0, g.vars.length)]
              , outputs := [(nameY, g.vars.length + 1)] }]) },
       true) := by
    simp only [_replace_output]
    rw [hv]
  rw [h1, if_neg hm]

theorem filter_range_eq_single : ∀ {n : Nat} {p : Nat → Bool} {k : Nat}, k < n →
    (∀ j, j < n → (p j = true ↔ j = k)) → (List.range n).filter p = [k]
  | 0, _, _, hk, _ => absurd hk (by omega)
  | m + 1, p, k, hk, h => by
    rw [List.range_succ, List.filter_append]
    by_cases hkm : k = m
    · subst hkm
      have h1 : (List.range k).filter p = [] := by
        rw [List.filter_eq_nil_iff]
        intro j hj hpj
        rw [List.mem_range] at hj
        have := (h j (by omega)).1 hpj
        omega
      have h2 : p k = true := (h k (by omega)).2 rfl
      rw [h1]
      simp [h2]
    · have h1 := filter_range_eq_single (n := m) (p := p) (k := k) (by omega)
        (fun j hj => h j (by omega))
      have h2 : p m = false := by
        by_contra hc
        rw [Bool.not_eq_false] at hc
        have := (h m (by omega)).1 hc
        omega

      rw [h1]
      simp [h2]

theorem producers_pred_false {g : Graph} {vv k : Nat}
    (h : producers g vv = [k]) :
    ∀ j, j < g.ops.length → j ≠ k →
      (((g.ops.getD j defaultOper).outputs.map Prod.snd).contains vv) = false := by
  intro j hj hne
  by_contra hc
  rw [Bool.not_eq_false] at hc
  have hmem : j ∈ producers g vv := by
    unfold producers
    rw [List.mem_filter]
    exact ⟨List.mem_range.2 hj, hc⟩
  rw [h] at hmem
  simp at hmem
  exact hne hmem

theorem not_mem_snd_replaceRefs {l : List (String × Nat)} {vv V : Nat}
    (hlt : ∀ p ∈ l, p.2 < V) (hv : vv < V) :
    vv ∉ (replaceRefs vv V l).map Prod.snd := by
  induction l with
  | nil => simp [replaceRefs]
  | cons p rest ih =>
    have h1 := hlt p (List.mem_cons_self p rest)
    have ihh := ih (fun q hq => hlt q (List.mem_cons_of_mem p hq))
    simp only [replaceRefs, List.map_cons, List.mem_cons] at ihh ⊢
    rintro (hc | hc)
    · by_cases hp : p.2 = vv
      · rw [if_pos hp] at hc
        simp at hc
        omega
      · rw [if_neg hp] at hc
        exact hp (by simpa using hc.symm)
    · exact ihh hc

theorem replaceRefs_snd_lt {l : List (String × Nat)} {old new B : Nat}
    (hl : ∀ p ∈ l, p.2 < B) (hnew : new < B) :
    ∀ p ∈ replaceRefs old new l, p.2 < B := by
  intro p hp
  unfold replaceRefs at hp
  rw [List.mem_map] at hp
  obtain ⟨q, hq, rfl⟩ := hp
  by_cases h : q.2 = old
  · simp only [if_pos h]
    exact hnew
  · simp only [if_neg h]
    exact hl q hq

/-- Pointwise description of the operator list after a splicing
`_replace_output` call. -/
theorem _replace_output_ops_getD {g : Graph} {opIdx : Nat} {varName : String}
    {target : ChannelModeEnum} {v : Nat}
    (hv : lookupName (g.ops.getD opIdx defaultOper).outputs varName = some v)
    (hm : ChannelMode_get g v ≠ target) (hop : opIdx < g.ops.length) (j : Nat) :
    ((_replace_output g opIdx varName target).1.ops.getD j defaultOper) =
      if j < g.ops.length then
        (if j = opIdx then
          { kind := (g.ops.getD opIdx defaultOper).kind
          , inputs := replaceRefs (g.vars.length + 1) v
              (g.ops.getD opIdx defaultOper).inputs
          , outputs := replaceRefs (g.vars.length + 1) v
              (replaceRefs v g.vars.length (g.ops.getD opIdx defaultOper).outputs) }
         else
          { kind := (g.ops.getD j defaultOper).kind
          , inputs := replaceRefs (g.vars.length + 1) v (g.ops.getD j defaultOper).inputs
          , outputs := replaceRefs (g.vars.length + 1) v (g.ops.getD j defaultOper).outputs })
      else if j = g.ops.length then
        { kind := if target = ChannelModeEnum.RGBA then OpKind.ConvertRGBAtoR
                  else OpKind.ConvertRtoRGBA
        , inputs := replaceRefs (g.vars.length + 1) v [(nameX0, g.vars.length)]
        , outputs := replaceRefs (g.vars.length + 1) v [(nameY, g.vars.length + 1)] }
      else defaultOper := by
  rw [_replace_output_eq hv hm]
  rw [List.getD_eq_getElem?_getD]
  simp only [List.getElem?_map]
  rw [List.getElem?_append]
  simp only [List.length_set]
  by_cases h1 : j < g.ops.length
  · rw [if_pos h1, if_pos h1]
    rw [List.getElem?_set]
    by_cases h2 : opIdx = j
    · subst h2
      rw [if_pos rfl, if_pos hop, if_pos rfl]
      rfl
    · rw [if_neg h2, if_neg (fun hc => h2 hc.symm)]
      rw [List.getElem?_eq_getElem h1]
      rw [List.getD_eq_getElem _ _ h1]
      rfl
  · rw [if_neg h1, if_neg h1]
    by_cases h2 : j = g.ops.length
    · subst h2
      rw [if_pos rfl]
      simp
    · rw [if_neg h2]
      have h3 : 1 ≤ j - g.ops.length := by omega
      have h4 : ∀ o : Oper, ([o][j - g.ops.length]?) = none := by
        intro o
        apply List.getElem?_eq_none
        simpa using h3
      rw [h4]
      rfl

theorem contains_false_of_not_mem {l : List Nat} {a : Nat} (h : a ∉ l) :
    l.contains a = false := by
  by_contra hc
  rw [Bool.not_eq_false] at hc
  exact h (by simpa using hc)

/-- C7: after a splicing `_replace_output` call, every consumer that
referenced the original output variable still references it unchanged (all
pre-existing operators keep their exact input reference lists, so the
original variable's identity is preserved for its consumers), the spliced
conversion operator consumes the operator's fresh output and produces the
original variable, and the original variable is referenced as an output by
exactly one operator: the conversion node. -/
theorem _replace_output_reference_integrity (g : Graph) (opIdx : Nat) (varName : String)
    (target : ChannelModeEnum) (v : Nat)
    (hop : opIdx < g.ops.length)
    (hv : lookupName (g.ops.getD opIdx defaultOper).outputs varName = some v)
    (hm : ChannelMode_get g v ≠ target)
    (hclosed : ∀ o ∈ g.ops, (∀ p ∈ o.inputs, p.2 < g.vars.length) ∧
               (∀ p ∈ o.outputs, p.2 < g.vars.length))
    (hprod : producers g v = [opIdx]) :
    (∀ j, j < g.ops.length →
      ((_replace_output g opIdx varName target).1.ops.getD j defaultOper).inputs
        = (g.ops.getD j defaultOper).inputs) ∧
    ((_replace_output g opIdx varName target).1.ops.getD g.ops.length defaultOper).inputs
      = [(nameX0, g.vars.length)] ∧
    ((_replace_output g opIdx varName target).1.ops.getD g.ops.length defaultOper).outputs
      = [(nameY, v)] ∧
    producers (_replace_output g opIdx varName target).1 v = [g.ops.length] := by
  have hopmem : g.ops.getD opIdx defaultOper ∈ g.ops := by
    rw [List.getD_eq_getElem _ _ hop]
    exact List.getElem_mem hop
  have hvlt : v < g.vars.length := (hclosed _ hopmem).2 _ (mem_of_lookupName hv)
  have hmemD : ∀ j, j < g.ops.length → g.ops.getD j defaultOper ∈ g.ops := by
    intro j hj
    rw [List.getD_eq_getElem _ _ hj]
    exact List.getElem_mem hj
  have hidIn : ∀ j, j < g.ops.length →
      replaceRefs (g.vars.length + 1) v (g.ops.getD j defaultOper).inputs
        = (g.ops.getD j defaultOper).inputs := by
    intro j hj
    apply replaceRefs_of_not_ref
    intro p hp
    have := (hclosed _ (hmemD j hj)).1 p hp
    omega
  have hidOut : ∀ j, j < g.ops.length →
      replaceRefs (g.vars.length + 1) v (g.ops.getD j defaultOper).outputs
        = (g.ops.getD j defaultOper).outputs := by
    intro j hj
    apply replaceRefs_of_not_ref
    intro p hp
    have := (hclosed _ (hmemD j hj)).2 p hp
    omega
  have hconvIn : replaceRefs (g.vars.length + 1) v [(nameX0, g.vars.length)]
      = [(nameX0, g.vars.length)] := by
    apply replaceRefs_of_not_ref
    intro p hp
    simp only [List.mem_singleton] at hp
    subst hp
    simp
  have hconvOut : replaceRefs (g.vars.length + 1) v [(nameY, g.vars.length + 1)]
      = [(nameY, v)] := by
    simp [replaceRefs]
  refine ⟨?_, ?_, ?_, ?_⟩
  · intro j hj
    rw [_replace_output_ops_getD hv hm hop j, if_pos hj]
    by_cases h2 : j = opIdx
    · subst h2
      rw [if_pos rfl]
      exact hidIn j hj
    · rw [if_neg h2]
      exact hidIn j hj
  · rw [_replace_output_ops_getD hv hm hop g.ops.length]
    rw [if_neg (by omega), if_pos rfl]
    exact hconvIn
  · rw [_replace_output_ops_getD hv hm hop g.ops.length]
    rw [if_neg (by omega), if_pos rfl]
    exact hconvOut
  · have hlen : (_replace_output g opIdx varName target).1.ops.length
        = g.ops.length + 1 := by
      rw [_replace_output_eq hv hm]
      simp
    unfold producers
    rw [hlen]
    apply filter_range_eq_single (by omega)
    intro j hj
    by_cases h2 : j = g.ops.length
    · subst h2
      rw [_replace_output_ops_getD hv hm hop]
      rw [if_neg (by omega), if_pos rfl]
      constructor
      · intro _
        rfl
      · intro _
        rw [show ({ kind := if target = ChannelModeEnum.RGBA then OpKind.ConvertRGBAtoR
                    else OpKind.ConvertRtoRGBA
                  , inputs := replaceRefs (g.vars.length + 1) v [(nameX0, g.vars.length)]
                  , outputs := replaceRefs (g.vars.length + 1) v
                      [(nameY, g.vars.length + 1)] } : Oper).outputs
              = replaceRefs (g.vars.length + 1) v [(nameY, g.vars.length + 1)] from rfl]
        rw [hconvOut]
        simp
    · have hjlt : j < g.ops.length := by omega
      rw [_replace_output_ops_getD hv hm hop, if_pos hjlt]
      by_cases h3 : j = opIdx
      · subst h3
        rw [if_pos rfl]
        have hb : ∀ p ∈ replaceRefs v g.vars.length
            (g.ops.getD j defaultOper).outputs, p.2 ≠ g.vars.length + 1 := by
          intro p hp
          have := replaceRefs_snd_lt
            (fun q hq => Nat.lt_succ_of_lt ((hclosed _ hopmem).2 q hq))
            (Nat.lt_succ_self g.vars.length) p hp
          omega
        rw [show ({ kind := (g.ops.getD j defaultOper).kind
                  , inputs := replaceRefs (g.vars.length + 1) v
                      (g.ops.getD j defaultOper).inputs
                  , outputs := replaceRefs (g.vars.length + 1) v
                      (replaceRefs v g.vars.length (g.ops.getD j defaultOper).outputs) } :
                  Oper).outputs
              = replaceRefs (g.vars.length + 1) v
                  (replaceRefs v g.vars.length (g.ops.getD j defaultOper).outputs) from rfl]
        rw [replaceRefs_of_not_ref hb]
        have hnm : v ∉ (replaceRefs v g.vars.length
            (g.ops.getD j defaultOper).outputs).map Prod.snd :=
          not_mem_snd_replaceRefs ((hclosed _ hopmem).2) hvlt
        rw [contains_false_of_not_mem hnm]
        simp
        omega
      · rw [if_neg h3]
        rw [show ({ kind := (g.ops.getD j defaultOper).kind
                  , inputs := replaceRefs (g.vars.length + 1) v
                      (g.ops.getD j defaultOper).inputs
                  , outputs := replaceRefs (g.vars.length + 1) v
                      (g.ops.getD j defaultOper).outputs } : Oper).outputs
              = replaceRefs (g.vars.length + 1) v
                  (g.ops.getD j defaultOper).outputs from rfl]
        rw [hidOut j hjlt]
        rw [producers_pred_false hprod j hjlt h3]
        simp
        omega

/-- Witness for C7 at a concrete graph: the producing operator `0` writes
the `RGBA` variable `0`, consumed by operator `1`; after the splice the
consumer still reads variable `0`, and variable `0` is produced only by the
new conversion operator `2`. -/
theorem _replace_output_reference_integrity_witness :
    ChannelMode_get graphOutSplice 0 ≠ ChannelModeEnum.R ∧
    producers graphOutSplice 0 = [0] ∧
    ((∀ j, j < graphOutSplice.ops.length →
      ((_replace_output graphOutSplice 0 nameY ChannelModeEnum.R).1.ops.getD j
        defaultOper).inputs = (graphOutSplice.ops.getD j defaultOper).inputs) ∧
    ((_replace_output graphOutSplice 0 nameY ChannelModeEnum.R).1.ops.getD
      graphOutSplice.ops.length defaultOper).inputs
      = [(nameX0, graphOutSplice.vars.length)] ∧
    ((_replace_output graphOutSplice 0 nameY ChannelModeEnum.R).1.ops.getD
      graphOutSplice.ops.length defaultOper).outputs = [(nameY, 0)] ∧
    producers (_replace_output graphOutSplice 0 nameY ChannelModeEnum.R).1 0
      = [graphOutSplice.ops.length]) :=
  ⟨by decide, by decide,
   _replace_output_reference_integrity graphOutSplice 0 nameY ChannelModeEnum.R 0
     (by decide) (by decide) (by decide) (by decide) (by decide)⟩

/-! ## Claim C3: one invocation only forces the first non-conforming input -/

/-- C3 counterexample: on a generic operator with two `RGBA` inputs, a
single invocation of the pass converts only the first input; afterwards the
second input still references variable `1`, whose mode is still `RGBA`
(and only one conversion operator was added), refuting the claim that one
invocation splices a conversion for every non-`R` input. -/
theorem one_pass_leaves_second_rgba_input :
    lookupName ((optimize graphTwoRGBA).1.ops.getD 0 defaultOper).inputs nameX1 = some 1 ∧
    ChannelMode_get (optimize graphTwoRGBA).1 1 = ChannelModeEnum.RGBA ∧
    ChannelMode_get graphTwoRGBA 1 ≠ ChannelModeEnum.R ∧
    (optimize graphTwoRGBA).1.ops.length = 2 := by decide

theorem _replace_input_any_first (g : Graph) (opIdx : Nat) (target : ChannelModeEnum) :
    ∀ names, _replace_input_any g opIdx target names =
      match firstNonConforming g opIdx target names with
      | none => (g, false)
      | some n => ((_replace_input g opIdx n target).1, true)
  | [] => rfl
  | n :: rest => by
    have ih := _replace_input_any_first g opIdx target rest
    cases hl : lookupName (g.ops.getD opIdx defaultOper).inputs n with
    | none =>
      rw [_replace_input_any]
      rw [firstNonConforming, hl]
      simp only [_replace_input_none hl]
      simpa using ih
    | some v =>
      by_cases hm : ChannelMode_get g v = target
      · rw [_replace_input_any]
        rw [firstNonConforming, hl]
        simp only [_replace_input_conforming hl hm, if_pos hm]
        simpa using ih
      · have hc := _replace_input_changed hl hm
        rw [_replace_input_any]
        rw [firstNonConforming, hl]
        simp only [if_neg hm]
        rw [if_pos hc, ← hc]

/-- C3 (amended): a single `_replace_input_all` call forces only the
*first* input reference whose mode differs from the target — Python's
`any(...)` short-circuits after the first successful replacement — so the
call either leaves the graph unchanged (all inputs already conforming) or
performs exactly the one splice for the first non-conforming input name;
the remaining non-conforming inputs are only handled by later invocations
of the pass. -/
theorem _replace_input_all_forces_first (g : Graph) (opIdx : Nat) (target : ChannelModeEnum) :
    _replace_input_all g opIdx target =
      match firstNonConforming g opIdx target
          ((g.ops.getD opIdx defaultOper).inputs.map Prod.fst) with
      | none => (g, false)
      | some n => ((_replace_input g opIdx n target).1, true) :=
  _replace_input_any_first g opIdx target _

/-! ## Claim C1: the converged invariant of the channel-mode pass -/

theorem _replace_output_changed {g : Graph} {opIdx : Nat} {n : String}
    {target : ChannelModeEnum} {v : Nat}
    (h : lookupName (g.ops.getD opIdx defaultOper).outputs n = some v)
    (hm : ChannelMode_get g v ≠ target) :
    (_replace_output g opIdx n target).2 = true := by
  rw [_replace_output_eq h hm]

theorem _replace_input_false_inv {g : Graph} {opIdx : Nat} {n : String}
    {target : ChannelModeEnum}
    (h : (_replace_input g opIdx n target).2 = false) :
    (_replace_input g opIdx n target).1 = g ∧
    ∀ v, lookupName (g.ops.getD opIdx defaultOper).inputs n = some v →
      ChannelMode_get g v = target := by
  cases hl : lookupName (g.ops.getD opIdx defaultOper).inputs n with
  | none =>
    rw [_replace_input_none hl]
    refine ⟨rfl, ?_⟩
    intro v hv
    cases hv
  | some v =>
    by_cases hm : ChannelMode_get g v = target
    · rw [_replace_input_conforming hl hm]
      refine ⟨rfl, ?_⟩
      intro w hw
      injection hw with hw2
      subst hw2
      exact hm
    · rw [_replace_input_changed hl hm] at h
      cases h

theorem _replace_output_false_inv {g : Graph} {opIdx : Nat} {n : String}
    {target : ChannelModeEnum}
    (h : (_replace_output g opIdx n target).2 = false) :
    (_replace_output g opIdx n target).1 = g ∧
    ∀ v, lookupName (g.ops.getD opIdx defaultOper).outputs n = some v →
      ChannelMode_get g v = target := by
  cases hl : lookupName (g.ops.getD opIdx defaultOper).outputs n with
  | none =>
    rw [_replace_output_none hl]
    refine ⟨rfl, ?_⟩
    intro v hv
    cases hv
  | some v =>
    by_cases hm : ChannelMode_get g v = target
    · rw [_replace_output_conforming hl hm]
      refine ⟨rfl, ?_⟩
      intro w hw
      injection hw with hw2
      subst hw2
      exact hm
    · rw [_replace_output_changed hl hm] at h
      cases h

theorem _replace_input_any_false_inv (g : Graph) (opIdx : Nat)
    (target : ChannelModeEnum) :
    ∀ names, (_replace_input_any g opIdx target names).2 = false →
      (_replace_input_any g opIdx target names).1 = g ∧
      ∀ n ∈ names, ∀ v,
        lookupName (g.ops.getD opIdx defaultOper).inputs n = some v →
        ChannelMode_get g v = target
  | [] => fun _ => ⟨rfl, by simp⟩
  | n :: rest => fun h => by
    by_cases hr : (_replace_input g opIdx n target).2 = true
    · have he : _replace_input_any g opIdx target (n :: rest)
          = _replace_input g opIdx n target := by
        simp only [_replace_input_any]
        rw [if_pos hr]
      rw [he] at h
      rw [h] at hr
      cases hr
    · rw [Bool.not_eq_true] at hr
      obtain ⟨hg, hcond⟩ := _replace_input_false_inv hr
      have he : _replace_input_any g opIdx target (n :: rest)
          = _replace_input_any g opIdx target rest := by
        simp only [_replace_input_any]
        rw [if_neg (by rw [hr]; simp), hg]
      rw [he] at h ⊢
      obtain ⟨hg2, hcond2⟩ := _replace_input_any_false_inv g opIdx target rest h
      refine ⟨hg2, ?_⟩
      intro m hm v hv
      rcases List.mem_cons.mp hm with rfl | hmem
      · exact hcond v hv
      · exact hcond2 m hmem v hv

theorem _replace_output_any_false_inv (g : Graph) (opIdx : Nat)
    (target : ChannelModeEnum) :
    ∀ names, (_replace_output_any g opIdx target names).2 = false →
      (_replace_output_any g opIdx target names).1 = g ∧
      ∀ n ∈ names, ∀ v,
        lookupName (g.ops.getD opIdx defaultOper).outputs n = some v →
        ChannelMode_get g v = target
  | [] => fun _ => ⟨rfl, by simp⟩
  | n :: rest => fun h => by
    by_cases hr : (_replace_output g opIdx n target).2 = true
    · have he : _replace_output_any g opIdx target (n :: rest)
          = _replace_output g opIdx n target := by
        simp only [_replace_output_any]
        rw [if_pos hr]
      rw [he] at h
      rw [h] at hr
      cases hr
    · rw [Bool.not_eq_true] at hr
      obtain ⟨hg, hcond⟩ := _replace_output_false_inv hr
      have he : _replace_output_any g opIdx target (n :: rest)
          = _replace_output_any g opIdx target rest := by
        simp only [_replace_output_any]
        rw [if_neg (by rw [hr]; simp), hg]
      rw [he] at h ⊢
      obtain ⟨hg2, hcond2⟩ := _replace_output_any_false_inv g opIdx target rest h
      refine ⟨hg2, ?_⟩
      intro m hm v hv
      rcases List.mem_cons.mp hm with rfl | hmem
      · exact hcond v hv
      · exact hcond2 m hmem v hv

theorem optimizeStep_flag_true (acc : Graph × Bool) (i : Nat) (h : acc.2 = true) :
    (optimizeStep acc i).2 = true := by
  obtain ⟨g, b⟩ := acc
  simp only at h
  subst h
  cases hk : (g.ops.getD i defaultOper).kind
  all_goals
    simp only [optimizeStep]
    rw [hk]
    try rfl

theorem optimize_foldl_flag_true :
    ∀ (l : List Nat) (acc : Graph × Bool), acc.2 = true →
      (l.foldl optimizeStep acc).2 = true
  | [], _ => fun h => h
  | i :: l, acc => fun h =>
    optimize_foldl_flag_true l (optimizeStep acc i) (optimizeStep_flag_true acc i h)

theorem optimizeStep_false_inv {g : Graph} {b : Bool} {i : Nat}
    (h : (optimizeStep (g, b) i).2 = false) :
    (optimizeStep (g, b) i).1 = g ∧ StepOK g i := by
  cases hk : (g.ops.getD i defaultOper).kind
  case Sgemm =>
    have he : optimizeStep (g, b) i = (g, b) := by
      simp only [optimizeStep]
      rw [hk]
    rw [he]
    refine ⟨rfl, ?_, ?_, ?_⟩ <;> intro hc <;> rw [hk] at hc <;> cases hc
  case ConvertRGBAtoR =>
    have he : optimizeStep (g, b) i =
        ((_replace_output (_replace_input g i nameX0 ChannelModeEnum.RGBA).1 i nameY
            ChannelModeEnum.R).1,
         b || (_replace_input g i nameX0 ChannelModeEnum.RGBA).2 ||
           (_replace_output (_replace_input g i nameX0 ChannelModeEnum.RGBA).1 i nameY
             ChannelModeEnum.R).2) := by
      simp only [optimizeStep]
      rw [hk]
    rw [he] at h ⊢
    simp only [Bool.or_eq_false_iff] at h
    obtain ⟨⟨hb, h1⟩, h2⟩ := h
    obtain ⟨hg1, hcondIn⟩ := _replace_input_false_inv h1
    rw [hg1] at h2 ⊢
    obtain ⟨hg2, hcondOut⟩ := _replace_output_false_inv h2
    rw [hg2]
    refine ⟨rfl, ?_, ?_, ?_⟩
    · intro _
      exact ⟨hcondIn, hcondOut⟩
    · intro hc
      rw [hk] at hc
      cases hc
    · intro hc
      rw [hk] at hc
      cases hc
  case ConvertRtoRGBA =>
    have he : optimizeStep (g, b) i =
        ((_replace_output (_replace_input g i nameX0 ChannelModeEnum.R).1 i nameY
            ChannelModeEnum.RGBA).1,
         b || (_replace_input g i nameX0 ChannelModeEnum.R).2 ||
           (_replace_output (_replace_input g i nameX0 ChannelModeEnum.R).1 i nameY
             ChannelModeEnum.RGBA).2) := by
      simp only [optimizeStep]
      rw [hk]
    rw [he] at h ⊢
    simp only [Bool.or_eq_false_iff] at h
    obtain ⟨⟨hb, h1⟩, h2⟩ := h
    obtain ⟨hg1, hcondIn⟩ := _replace_input_false_inv h1
    rw [hg1] at h2 ⊢
    obtain ⟨hg2, hcondOut⟩ := _replace_output_false_inv h2
    rw [hg2]
    refine ⟨rfl, ?_, ?_, ?_⟩
    · intro hc
      rw [hk] at hc
      cases hc
    · intro _
      exact ⟨hcondIn, hcondOut⟩
    · intro hc
      rw [hk] at hc
      cases hc
  case Generic =>
    have he : optimizeStep (g, b) i =
        ((_replace_output_all (_replace_input_all g i ChannelModeEnum.R).1 i
            ChannelModeEnum.R).1,
         b || (_replace_input_all g i ChannelModeEnum.R).2 ||
           (_replace_output_all (_replace_input_all g i ChannelModeEnum.R).1 i
             ChannelModeEnum.R).2) := by
      simp only [optimizeStep]
      rw [hk]
    rw [he] at h ⊢
    simp only [Bool.or_eq_false_iff] at h
    obtain ⟨⟨hb, h1⟩, h2⟩ := h
    rw [_replace_input_all] at h1
    obtain ⟨hg1, hcondIn⟩ := _replace_input_any_false_inv g i ChannelModeEnum.R _ h1
    have hg1a : (_replace_input_all g i ChannelModeEnum.R).1 = g := by
      rw [_replace_input_all]
      exact hg1
    rw [hg1a] at h2 ⊢
    rw [_replace_output_all] at h2
    obtain ⟨hg2, hcondOut⟩ := _replace_output_any_false_inv g i ChannelModeEnum.R _ h2
    have hg2a : (_replace_output_all g i ChannelModeEnum.R).1 = g := by
      rw [_replace_output_all]
      exact hg2
    rw [hg2a]
    refine ⟨rfl, ?_, ?_, ?_⟩
    · intro hc
      rw [hk] at hc
      cases hc
    · intro hc
      rw [hk] at hc
      cases hc
    · intro _
      exact ⟨hcondIn, hcondOut⟩

theorem optimize_fold_false_inv :
    ∀ (l : List Nat) (g : Graph),
      (l.foldl optimizeStep (g, false)).2 = false →
      (l.foldl optimizeStep (g, false)).1 = g ∧ ∀ i ∈ l, StepOK g i
  | [], g => fun _ => ⟨rfl, by simp⟩
  | i :: l, g => fun h => by
    rw [List.foldl_cons] at h ⊢
    have hflag : (optimizeStep (g, false) i).2 = false := by
      by_contra hc
      rw [Bool.not_eq_false] at hc
      have he : optimizeStep (g, false) i
          = ((optimizeStep (g, false) i).1, true) := by
        rw [← hc]
      rw [he] at h
      have := optimize_foldl_flag_true l ((optimizeStep (g, false) i).1, true) rfl
      rw [this] at h
      cases h
    obtain ⟨hg, hok⟩ := optimizeStep_false_inv hflag
    have he : optimizeStep (g, false) i = (g, false) := by
      have h0 : optimizeStep (g, false) i
          = ((optimizeStep (g, false) i).1, (optimizeStep (g, false) i).2) := rfl
      rw [h0, hg, hflag]
    rw [he] at h ⊢
    obtain ⟨hg2, hok2⟩ := optimize_fold_false_inv l g h
    refine ⟨hg2, ?_⟩
    intro j hj
    rcases List.mem_cons.mp hj with rfl | hmem
    · exact hok
    · exact hok2 j hmem

theorem lookupName_of_nodup_keys {l : List (String × Nat)}
    (hnd : (l.map Prod.fst).Nodup) {p : String × Nat} (hp : p ∈ l) :
    lookupName l p.1 = some p.2 := by
  induction l with
  | nil => cases hp
  | cons q rest ih =>
    rw [List.map_cons, List.nodup_cons] at hnd
    rcases List.mem_cons.mp hp with rfl | hmem
    · rw [lookupName, if_pos rfl]
    · rw [lookupName]
      have hne : q.1 ≠ p.1 := by
        intro hc
        exact hnd.1 (hc ▸ List.mem_map_of_mem Prod.fst hmem)
      rw [if_neg hne]
      exact ih hnd.2 hmem

/-- C1: on every graph for which the pass reports the changed flag `false`
(convergence), every generic (non-`Sgemm`, non-conversion) operator has all
of its named input and output variables in channel mode `R`, every
`ConvertRGBAtoR` has its `x0` input in mode `RGBA` and its `y` output in
mode `R`, and every `ConvertRtoRGBA` has its `x0` input in mode `R` and its
`y` output in mode `RGBA`.  (The well-formedness hypothesis says that an
operator's parameter names are distinct, which Python dictionaries
guarantee.) -/
theorem channel_mode_converged_invariant (g : Graph)
    (hwf : ∀ o ∈ g.ops, (o.inputs.map Prod.fst).Nodup ∧
      (o.outputs.map Prod.fst).Nodup)
    (hconv : (optimize g).2 = false) :
    ∀ i, i < g.ops.length →
      ((g.ops.getD i defaultOper).kind = OpKind.Generic →
        (∀ p ∈ (g.ops.getD i defaultOper).inputs,
           ChannelMode_get g p.2 = ChannelModeEnum.R) ∧
        (∀ p ∈ (g.ops.getD i defaultOper).outputs,
           ChannelMode_get g p.2 = ChannelModeEnum.R)) ∧
      ((g.ops.getD i defaultOper).kind = OpKind.ConvertRGBAtoR →
        (∀ v, lookupName (g.ops.getD i defaultOper).inputs nameX0 = some v →
           ChannelMode_get g v = ChannelModeEnum.RGBA) ∧
        (∀ v, lookupName (g.ops.getD i defaultOper).outputs nameY = some v →
           ChannelMode_get g v = ChannelModeEnum.R)) ∧
      ((g.ops.getD i defaultOper).kind = OpKind.ConvertRtoRGBA →
        (∀ v, lookupName (g.ops.getD i defaultOper).inputs nameX0 = some v →
           ChannelMode_get g v = ChannelModeEnum.R) ∧
        (∀ v, lookupName (g.ops.getD i defaultOper).outputs nameY = some v →
           ChannelMode_get g v = ChannelModeEnum.RGBA)) := by
  intro i hi
  have hmemD : g.ops.getD i defaultOper ∈ g.ops := by
    rw [List.getD_eq_getElem _ _ hi]
    exact List.getElem_mem hi
  rw [optimize] at hconv
  obtain ⟨_, hok⟩ := optimize_fold_false_inv (List.range g.ops.length) g hconv
  obtain ⟨hconv1, hconv2, hgen⟩ := hok i (List.mem_range.2 hi)
  refine ⟨?_, hconv1, hconv2⟩
  intro hk
  obtain ⟨hin, hout⟩ := hgen hk
  constructor
  · intro p hp
    exact hin p.1 (List.mem_map_of_mem Prod.fst hp) p.2
      (lookupName_of_nodup_keys (hwf _ hmemD).1 hp)
  · intro p hp
    exact hout p.1 (List.mem_map_of_mem Prod.fst hp) p.2
      (lookupName_of_nodup_keys (hwf _ hmemD).2 hp)

/-- Witness for C1 at a concrete converged graph with one generic operator
(all references `R`), one `ConvertRtoRGBA` (input `R`, output `RGBA`) and
an exempt `Sgemm`. -/
theorem channel_mode_converged_invariant_witness :
    (optimize graphConverged).2 = false ∧
    (∀ i, i < graphConverged.ops.length →
      ((graphConverged.ops.getD i defaultOper).kind = OpKind.Generic →
        (∀ p ∈ (graphConverged.ops.getD i defaultOper).inputs,
           ChannelMode_get graphConverged p.2 = ChannelModeEnum.R) ∧
        (∀ p ∈ (graphConverged.ops.getD i defaultOper).outputs,
           ChannelMode_get graphConverged p.2 = ChannelModeEnum.R)) ∧
      ((graphConverged.ops.getD i defaultOper).kind = OpKind.ConvertRGBAtoR →
        (∀ v, lookupName (graphConverged.ops.getD i defaultOper).inputs nameX0 = some v →
           ChannelMode_get graphConverged v = ChannelModeEnum.RGBA) ∧
        (∀ v, lookupName (graphConverged.ops.getD i defaultOper).outputs nameY = some v →
           ChannelMode_get graphConverged v = ChannelModeEnum.R)) ∧
      ((graphConverged.ops.getD i defaultOper).kind = OpKind.ConvertRtoRGBA →
        (∀ v, lookupName (graphConverged.ops.getD i defaultOper).inputs nameX0 = some v →
           ChannelMode_get graphConverged v = ChannelModeEnum.R) ∧
        (∀ v, lookupName (graphConverged.ops.getD i defaultOper).outputs nameY = some v →
           ChannelMode_get graphConverged v = ChannelModeEnum.RGBA))) :=
  ⟨by decide,
   channel_mode_converged_invariant graphConverged (by decide) (by decide)⟩

/-! ## Claim C8: the ElementwiseAdd uniforms -/

/-- C8: `W` is `y.size` when `y.size < 1024` and `1024` otherwise, `H` is
the ceiling of `y.size / 1024`; hence for every positive `y.size`, `W` is
at most `1024` and `W * H` is at least `y.size`. -/
theorem elementwise_add_uniform_bounds (ysize : Nat) (h : 0 < ysize) :
    (ysize < 1024 → elementwise_add_W ysize = ysize) ∧
    (¬ ysize < 1024 → elementwise_add_W ysize = 1024) ∧
    elementwise_add_W ysize ≤ 1024 ∧
    ysize ≤ elementwise_add_W ysize * elementwise_add_H ysize := by
  unfold elementwise_add_W elementwise_add_H
  have hd := Nat.div_add_mod (ysize + 1023) 1024
  have hm : (ysize + 1023) % 1024 < 1024 := Nat.mod_lt _ (by norm_num)
  refine ⟨fun hlt => by simp [hlt], fun hlt => by simp [hlt], by split <;> omega, ?_⟩
  have h1023 : ysize + 1024 - 1 = ysize + 1023 := by omega
  rw [h1023]
  by_cases hlt : ysize < 1024
  · rw [if_pos hlt]
    have hH : 1 ≤ (ysize + 1023) / 1024 := (Nat.one_le_div_iff (by norm_num)).2 (by omega)
    calc ysize = ysize * 1 := (Nat.mul_one ysize).symm
    _ ≤ ysize * ((ysize + 1023) / 1024) := Nat.mul_le_mul_left ysize hH
  · rw [if_neg hlt]
    omega

/-- Witness for C8 at `y.size = 2000`: `W = 1024`, `H = 2`. -/
theorem elementwise_add_uniform_bounds_witness :
    0 < 2000 ∧
    ((2000 < 1024 → elementwise_add_W 2000 = 2000) ∧
     (¬ 2000 < 1024 → elementwise_add_W 2000 = 1024) ∧
     elementwise_add_W 2000 ≤ 1024 ∧
     2000 ≤ elementwise_add_W 2000 * elementwise_add_H 2000) :=
  ⟨by norm_num, elementwise_add_uniform_bounds 2000 (by norm_num)⟩


/-! ## Basic lemmas for the layout algebra -/

theorem idxOfA_lt_length {l : List Axis} {a : Axis} (h : a ∈ l) :
    idxOfA l a < l.length := by
  induction l with
  | nil => cases h
  | cons b rest ih =>
    rw [idxOfA]
    by_cases hb : b = a
    · rw [if_pos hb]
      simp
    · rw [if_neg hb]
      have : a ∈ rest := by
        rcases List.mem_cons.mp h with h1 | h1
        · exact absurd h1.symm hb
        · exact h1
      simpa using ih this

theorem idxOfA_le_length (l : List Axis) (a : Axis) : idxOfA l a ≤ l.length := by
  induction l with
  | nil => simp [idxOfA]
  | cons b rest ih =>
    rw [idxOfA]
    by_cases hb : b = a
    · rw [if_pos hb]
      simp
    · rw [if_neg hb]
      simpa using ih

theorem getElem?_idxOfA {l : List Axis} {a : Axis} (h : a ∈ l) :
    l[idxOfA l a]? = some a := by
  induction l with
  | nil => cases h
  | cons b rest ih =>
    rw [idxOfA]
    by_cases hb : b = a
    · rw [if_pos hb, hb]
      simp
    · rw [if_neg hb]
      have ha : a ∈ rest := by
        rcases List.mem_cons.mp h with h1 | h1
        · exact absurd h1.symm hb
        · exact h1
      simpa using ih ha

theorem row_at_idxOfA {v : VOrder} {a : Axis} (h : a ∈ axesOf v) :
    ∃ s, v[idxOfA (axesOf v) a]? = some (a, s) ∧ lookupExt v a = some s := by
  induction v with
  | nil => cases h
  | cons p rest ih =>
    rw [axesOf, List.map_cons] at h ⊢
    rw [idxOfA, lookupExt]
    by_cases hp : p.1 = a
    · rw [if_pos hp, if_pos hp]
      refine ⟨p.2, ?_, rfl⟩
      have : p = (a, p.2) := by
        rw [← hp]
      rw [← this]
      simp
    · rw [if_neg hp, if_neg hp]
      have ha : a ∈ axesOf rest := by
        rcases List.mem_cons.mp h with h1 | h1
        · exact absurd h1.symm hp
        · exact h1
      obtain ⟨s, h1, h2⟩ := ih ha
      exact ⟨s, by simpa using h1, h2⟩

theorem axesOf_append (l1 l2 : VOrder) :
    axesOf (l1 ++ l2) = axesOf l1 ++ axesOf l2 := by
  simp [axesOf]

theorem prodExt_append (l1 l2 : VOrder) :
    prodExt (l1 ++ l2) = prodExt l1 * prodExt l2 := by
  simp [prodExt]

/-- Decomposition of a variable's rows around an adjacent pair of axes, and
the corresponding shape of the merged row list. -/
theorem spliceVar_decomp {v : VOrder} {a1 a2 : Axis}
    (h1 : a1 ∈ axesOf v) (h2 : a2 ∈ axesOf v)
    (hadj : idxOfA (axesOf v) a1 + 1 = idxOfA (axesOf v) a2) (axisNew : Axis) :
    ∃ s1 s2,
      v = v.take (idxOfA (axesOf v) a1) ++
            (a1, s1) :: (a2, s2) :: v.drop (idxOfA (axesOf v) a2 + 1) ∧
      spliceVar a1 a2 axisNew v
        = v.take (idxOfA (axesOf v) a1) ++
            (axisNew, s1 * s2) :: v.drop (idxOfA (axesOf v) a2 + 1) ∧
      lookupExt v a1 = some s1 ∧ lookupExt v a2 = some s2 := by
  obtain ⟨s1, hr1, hl1⟩ := row_at_idxOfA h1
  obtain ⟨s2, hr2, hl2⟩ := row_at_idxOfA h2
  have hlen : (axesOf v).length = v.length := by simp [axesOf]
  have hi1 : idxOfA (axesOf v) a1 < v.length := by
    have := idxOfA_lt_length h1
    omega
  have hi2 : idxOfA (axesOf v) a2 < v.length := by
    have := idxOfA_lt_length h2
    omega
  refine ⟨s1, s2, ?_, ?_, hl1, hl2⟩
  · conv_lhs => rw [← List.take_append_drop (idxOfA (axesOf v) a1) v]
    congr 1
    rw [List.drop_eq_getElem_cons hi1]
    have hv1 : v[idxOfA (axesOf v) a1] = (a1, s1) := by
      rw [List.getElem?_eq_getElem hi1] at hr1
      injection hr1
    rw [hv1]
    congr 1
    rw [← hadj] at hi2 ⊢
    rw [List.drop_eq_getElem_cons hi2]
    have hv2 : v[idxOfA (axesOf v) a1 + 1] = (a2, s2) := by
      rw [← hadj] at hr2
      rw [List.getElem?_eq_getElem hi2] at hr2
      injection hr2
    rw [hv2]
  · rw [spliceVar]
    rw [hl1, hl2]
    simp

theorem spliceVar_prodExt {v : VOrder} {a1 a2 : Axis}
    (h1 : a1 ∈ axesOf v) (h2 : a2 ∈ axesOf v)
    (hadj : idxOfA (axesOf v) a1 + 1 = idxOfA (axesOf v) a2) (axisNew : Axis) :
    prodExt (spliceVar a1 a2 axisNew v) = prodExt v := by
  obtain ⟨s1, s2, hdec, hspl, _, _⟩ := spliceVar_decomp h1 h2 hadj axisNew
  rw [hspl]
  conv_rhs => rw [hdec]
  rw [prodExt_append, prodExt_append]
  simp only [prodExt, List.map_cons, List.prod_cons]
  ring

theorem spliceVar_length {v : VOrder} {a1 a2 : Axis}
    (h1 : a1 ∈ axesOf v) (h2 : a2 ∈ axesOf v)
    (hadj : idxOfA (axesOf v) a1 + 1 = idxOfA (axesOf v) a2) (axisNew : Axis) :
    (spliceVar a1 a2 axisNew v).length + 1 = v.length := by
  obtain ⟨s1, s2, hdec, hspl, _, _⟩ := spliceVar_decomp h1 h2 hadj axisNew
  rw [hspl]
  conv_rhs => rw [hdec]
  simp
  omega

theorem spliceVar_axes {v : VOrder} {a1 a2 : Axis}
    (h1 : a1 ∈ axesOf v) (h2 : a2 ∈ axesOf v)
    (hadj : idxOfA (axesOf v) a1 + 1 = idxOfA (axesOf v) a2) (axisNew : Axis) :
    ∃ A B : List Axis,
      axesOf v = A ++ a1 :: a2 :: B ∧
      axesOf (spliceVar a1 a2 axisNew v) = A ++ axisNew :: B := by
  obtain ⟨s1, s2, hdec, hspl, _, _⟩ := spliceVar_decomp h1 h2 hadj axisNew
  refine ⟨axesOf (v.take (idxOfA (axesOf v) a1)),
          axesOf (v.drop (idxOfA (axesOf v) a2 + 1)), ?_, ?_⟩
  · conv_lhs => rw [hdec]
    rw [axesOf_append]
    rfl
  · rw [hspl, axesOf_append]
    rfl

theorem spliceVar_mem_axes {v : VOrder} {a1 a2 : Axis}
    (h1 : a1 ∈ axesOf v) (h2 : a2 ∈ axesOf v)
    (hadj : idxOfA (axesOf v) a1 + 1 = idxOfA (axesOf v) a2) (axisNew : Axis)
    (hnd : (axesOf v).Nodup) (b : Axis) :
    b ∈ axesOf (spliceVar a1 a2 axisNew v) ↔
      (b = axisNew ∨ (b ∈ axesOf v ∧ b ≠ a1 ∧ b ≠ a2)) := by
  obtain ⟨A, B, hv, hs⟩ := spliceVar_axes h1 h2 hadj axisNew
  rw [hs]
  rw [hv] at hnd ⊢
  have hnd2 := hnd
  rw [List.nodup_append] at hnd2
  obtain ⟨hndA, hndrest, hdisj⟩ := hnd2
  rw [List.nodup_cons] at hndrest
  obtain ⟨ha1, hndrest2⟩ := hndrest
  rw [List.nodup_cons] at hndrest2
  obtain ⟨ha2, hndB⟩ := hndrest2
  constructor
  · intro hb
    rcases List.mem_append.mp hb with hb1 | hb2
    · refine Or.inr ⟨List.mem_append.mpr (Or.inl hb1), ?_, ?_⟩
      · intro hc
        subst hc
        exact (hdisj hb1) (List.mem_cons_self _ _)
      · intro hc
        subst hc
        exact (hdisj hb1) (List.mem_cons_of_mem _ (List.mem_cons_self _ _))
    · rcases List.mem_cons.mp hb2 with hb3 | hb3
      · exact Or.inl hb3
      · refine Or.inr ⟨List.mem_append.mpr (Or.inr
          (List.mem_cons_of_mem _ (List.mem_cons_of_mem _ hb3))), ?_, ?_⟩
        · intro hc
          subst hc
          exact ha1 (List.mem_cons_of_mem _ hb3)
        · intro hc
          subst hc
          exact ha2 hb3
  · intro hb
    rcases hb with hb | ⟨hb1, hb2, hb3⟩
    · subst hb
      exact List.mem_append.mpr (Or.inr (List.mem_cons_self _ _))
    · rcases List.mem_append.mp hb1 with hb4 | hb4
      · exact List.mem_append.mpr (Or.inl hb4)
      · rcases List.mem_cons.mp hb4 with hb5 | hb5
        · exact absurd hb5 hb2
        · rcases List.mem_cons.mp hb5 with hb6 | hb6
          · exact absurd hb6 hb3
          · exact List.mem_append.mpr (Or.inr (List.mem_cons_of_mem _ hb6))

theorem spliceVar_nodup {v : VOrder} {a1 a2 : Axis}
    (h1 : a1 ∈ axesOf v) (h2 : a2 ∈ axesOf v)
    (hadj : idxOfA (axesOf v) a1 + 1 = idxOfA (axesOf v) a2) (axisNew : Axis)
    (hnd : (axesOf v).Nodup) (hfresh : axisNew ∉ axesOf v) :
    (axesOf (spliceVar a1 a2 axisNew v)).Nodup := by
  obtain ⟨A, B, hv, hs⟩ := spliceVar_axes h1 h2 hadj axisNew
  rw [hs]
  apply (List.perm_middle).symm.nodup
  rw [List.nodup_cons]
  constructor
  · intro hc
    apply hfresh
    rw [hv]
    rcases List.mem_append.mp hc with hc1 | hc1
    · exact List.mem_append.mpr (Or.inl hc1)
    · exact List.mem_append.mpr (Or.inr
        (List.mem_cons_of_mem _ (List.mem_cons_of_mem _ hc1)))
  · rw [hv] at hnd
    have hsub : (A ++ B).Sublist (A ++ a1 :: a2 :: B) := by
      apply List.Sublist.append_left
      exact (List.sublist_cons_self _ _).trans (List.sublist_cons_self _ _)
    exact hsub.nodup hnd

/-! ## Lemmas about the merge-state update and the pair search -/

theorem applyMergeGo_getElem? (vs1 : VarSet) (a1 a2 c : Axis) :
    ∀ (st : St) (k j : Nat),
      (applyMergeGo vs1 a1 a2 c k st)[j]? =
        (st[j]?).map (fun v => if (k + j) ∈ vs1 then spliceVar a1 a2 c v else v)
  | [], k, j => by simp [applyMergeGo]
  | v :: rest, k, 0 => by
    rw [applyMergeGo]
    simp
  | v :: rest, k, j + 1 => by
    have harith : k + 1 + j = k + (j + 1) := by omega
    rw [applyMergeGo]
    simp only [List.getElem?_cons_succ]
    rw [applyMergeGo_getElem? vs1 a1 a2 c rest (k + 1) j, harith]

theorem applyMerge_getElem? (vs1 : VarSet) (a1 a2 c : Axis) (st : St) (j : Nat) :
    (applyMerge vs1 a1 a2 c st)[j]? =
      (st[j]?).map (fun v => if j ∈ vs1 then spliceVar a1 a2 c v else v) := by
  rw [applyMerge, applyMergeGo_getElem?]
  simp

theorem applyMergeGo_length (vs1 : VarSet) (a1 a2 c : Axis) :
    ∀ (st : St) (k : Nat), (applyMergeGo vs1 a1 a2 c k st).length = st.length
  | [], _ => rfl
  | v :: rest, k => by
    rw [applyMergeGo]
    simp [applyMergeGo_length vs1 a1 a2 c rest (k + 1)]

theorem applyMerge_length (vs1 : VarSet) (a1 a2 c : Axis) (st : St) :
    (applyMerge vs1 a1 a2 c st).length = st.length :=
  applyMergeGo_length vs1 a1 a2 c st 0

theorem applyMerge_getD (vs1 : VarSet) (a1 a2 c : Axis) (st : St) {j : Nat}
    (hj : j < st.length) :
    (applyMerge vs1 a1 a2 c st).getD j [] =
      if j ∈ vs1 then spliceVar a1 a2 c (st.getD j []) else st.getD j [] := by
  rw [List.getD_eq_getElem?_getD, applyMerge_getElem?, List.getElem?_eq_getElem hj,
    List.getD_eq_getElem _ _ hj]
  rfl

theorem findInner_spec {st : St} {a1 : Axis} {vs1 : VarSet} :
    ∀ {items : VarDict} {a2 : Axis}, findInner st a1 vs1 items = some a2 →
      ∃ vs2, (a2, vs2) ∈ items ∧ a1 ≠ a2 ∧ guardOk st a1 vs1 a2 vs2 = true
  | [], _, h => by cases h
  | (b, vs) :: rest, a2, h => by
    rw [findInner] at h
    by_cases hc : (a1 != b && guardOk st a1 vs1 b vs) = true
    · rw [if_pos hc] at h
      injection h with h2
      subst h2
      rw [Bool.and_eq_true] at hc
      exact ⟨vs, List.mem_cons_self _ _, by simpa using hc.1, hc.2⟩
    · rw [if_neg hc] at h
      obtain ⟨vs2, hmem, hne, hg⟩ := findInner_spec h
      exact ⟨vs2, List.mem_cons_of_mem _ hmem, hne, hg⟩

theorem findOuter_spec {st : St} {full : VarDict} :
    ∀ {items : VarDict} {a1 : Axis} {vs1 : VarSet} {a2 : Axis},
      findOuter st full items = some (a1, vs1, a2) →
      (a1, vs1) ∈ items ∧
      ∃ vs2, (a2, vs2) ∈ full ∧ a1 ≠ a2 ∧ guardOk st a1 vs1 a2 vs2 = true
  | [], _, _, _, h => by cases h
  | (b, vs) :: rest, a1, vs1, a2, h => by
    rw [findOuter] at h
    cases hfi : findInner st b vs full with
    | some a3 =>
      rw [hfi] at h
      injection h with h2
      obtain ⟨rfl, rfl, rfl⟩ : b = a1 ∧ vs = vs1 ∧ a3 = a2 := by
        constructor
        · exact congrArg Prod.fst h2
        constructor
        · exact congrArg (fun q => q.2.1) h2
        · exact congrArg (fun q => q.2.2) h2
      exact ⟨List.mem_cons_self _ _, findInner_spec hfi⟩
    | none =>
      rw [hfi] at h
      obtain ⟨hmem, hrest⟩ := findOuter_spec h
      exact ⟨List.mem_cons_of_mem _ hmem, hrest⟩

theorem guardOk_spec {st : St} {a1 : Axis} {vs1 : VarSet} {a2 : Axis} {vs2 : VarSet}
    (h : guardOk st a1 vs1 a2 vs2 = true) :
    (∀ i, i ∈ vs1 ↔ i ∈ vs2) ∧
    (∀ i ∈ vs1, axIdx st i a1 + 1 = axIdx st i a2) := by
  rw [guardOk, Bool.and_eq_true] at h
  obtain ⟨hs, hall⟩ := h
  constructor
  · rw [sameSetB, Bool.and_eq_true] at hs
    obtain ⟨h1, h2⟩ := hs
    rw [List.all_eq_true] at h1 h2
    intro i
    constructor
    · intro hi
      simpa using h1 i hi
    · intro hi
      simpa using h2 i hi
  · rw [List.all_eq_true] at hall
    intro i hi
    simpa using hall i hi

/-! ## Lemmas about the axis dictionary -/

theorem eraseKey_sublist (a : Axis) : ∀ vd : VarDict, (eraseKey a vd).Sublist vd
  | [] => List.Sublist.refl _
  | (b, vs) :: rest => by
    rw [eraseKey]
    by_cases hb : b = a
    · rw [if_pos hb]
      exact List.sublist_cons_self _ _
    · rw [if_neg hb]
      exact List.Sublist.cons₂ _ (eraseKey_sublist a rest)

theorem mem_eraseKey {a : Axis} : ∀ {vd : VarDict},
    (vd.map Prod.fst).Nodup → ∀ {p : Axis × VarSet},
      (p ∈ eraseKey a vd ↔ (p ∈ vd ∧ p.1 ≠ a))
  | [], _, p => by simp [eraseKey]
  | (b, vs) :: rest, hnd, p => by
    rw [List.map_cons, List.nodup_cons] at hnd
    rw [eraseKey]
    by_cases hb : b = a
    · subst hb
      rw [if_pos rfl]
      constructor
      · intro hp
        refine ⟨List.mem_cons_of_mem _ hp, ?_⟩
        intro hc
        have hm := List.mem_map_of_mem Prod.fst hp
        rw [hc] at hm
        exact hnd.1 hm
      · rintro ⟨hp, hne⟩
        rcases List.mem_cons.mp hp with rfl | hp2
        · exact absurd rfl hne
        · exact hp2
    · rw [if_neg hb]
      rw [List.mem_cons, mem_eraseKey hnd.2, List.mem_cons]
      constructor
      · rintro (rfl | ⟨hp, hne⟩)
        · exact ⟨Or.inl rfl, hb⟩
        · exact ⟨Or.inr hp, hne⟩
      · rintro ⟨(rfl | hp), hne⟩
        · exact Or.inl rfl
        · exact Or.inr ⟨hp, hne⟩

theorem lookupVS_cons_self {a : Axis} {vs : VarSet} {rest : VarDict} :
    lookupVS ((a, vs) :: rest) a = some vs := by
  simp [lookupVS]

theorem lookupVS_cons_ne {a b : Axis} {vs : VarSet} {rest : VarDict} (h : ¬ a = b) :
    lookupVS ((a, vs) :: rest) b = lookupVS rest b := by
  simp [lookupVS, h]

theorem lookupVS_addVar (i : Nat) (a : Axis) : ∀ (vd : VarDict) (b : Axis) (j : Nat),
    j ∈ (lookupVS (addVar i a vd) b).getD [] ↔
      ((b = a ∧ j = i) ∨ j ∈ (lookupVS vd b).getD [])
  | [], b, j => by
    by_cases hb : a = b
    · subst hb
      simp [addVar, lookupVS]
    · have hb2 : ¬ (b = a) := fun hc => hb hc.symm
      simp [addVar, lookupVS, hb, hb2]
  | (q, qs) :: rest, b, j => by
    rw [addVar]
    by_cases hq : q = a
    · rw [if_pos hq]
      subst hq
      by_cases hb : q = b
      · subst hb
        rw [lookupVS_cons_self, lookupVS_cons_self]
        simp only [Option.getD_some]
        by_cases hi : i ∈ qs
        · rw [if_pos hi]
          constructor
          · intro h
            exact Or.inr h
          · rintro (⟨_, rfl⟩ | h)
            · exact hi
            · exact h
        · rw [if_neg hi]
          rw [List.mem_append, List.mem_singleton]
          constructor
          · rintro (h | rfl)
            · exact Or.inr h
            · exact Or.inl ⟨by trivial, rfl⟩
          · rintro (⟨_, rfl⟩ | h)
            · exact Or.inr rfl
            · exact Or.inl h
      · have hba : ¬ (b = q) := fun hc => hb hc.symm
        rw [lookupVS_cons_ne hb, lookupVS_cons_ne hb]
        simp [hba]
    · rw [if_neg hq]
      by_cases hb : q = b
      · subst hb
        rw [lookupVS_cons_self, lookupVS_cons_self]
        simp only [Option.getD_some]
        simp [hq]
      · rw [lookupVS_cons_ne hb, lookupVS_cons_ne hb]
        exact lookupVS_addVar i a rest b j


theorem lookupVS_addAxes (i : Nat) : ∀ (axs : List Axis) (vd : VarDict) (b : Axis) (j : Nat),
    j ∈ (lookupVS (addAxes i axs vd) b).getD [] ↔
      ((b ∈ axs ∧ j = i) ∨ j ∈ (lookupVS vd b).getD [])
  | [], vd, b, j => by
    simp [addAxes]
  | a :: axs, vd, b, j => by
    have hstep : addAxes i (a :: axs) vd = addAxes i axs (addVar i a vd) := by
      rw [addAxes, addAxes, List.foldl_cons]
    rw [hstep, lookupVS_addAxes i axs (addVar i a vd) b j, lookupVS_addVar]
    constructor
    · rintro (⟨hm, rfl⟩ | (⟨rfl, rfl⟩ | h))
      · exact Or.inl ⟨List.mem_cons_of_mem _ hm, rfl⟩
      · exact Or.inl ⟨List.mem_cons_self _ _, rfl⟩
      · exact Or.inr h
    · rintro (⟨hm, rfl⟩ | h)
      · rcases List.mem_cons.mp hm with rfl | hm2
        · exact Or.inr (Or.inl ⟨rfl, rfl⟩)
        · exact Or.inl ⟨hm2, rfl⟩
      · exact Or.inr (Or.inr h)

theorem lookupVS_buildFold :
    ∀ (l : List (Nat × VOrder)) (vd : VarDict) (b : Axis) (j : Nat),
      j ∈ (lookupVS (l.foldl (fun vd iv => addAxes iv.1 (axesOf iv.2) vd) vd) b).getD [] ↔
        ((∃ iv ∈ l, iv.1 = j ∧ b ∈ axesOf iv.2) ∨ j ∈ (lookupVS vd b).getD [])
  | [], vd, b, j => by simp
  | iv :: l, vd, b, j => by
    rw [List.foldl_cons, lookupVS_buildFold l _ b j, lookupVS_addAxes]
    constructor
    · rintro (⟨q, hq, rfl, hb⟩ | (⟨hb, rfl⟩ | h))
      · exact Or.inl ⟨q, List.mem_cons_of_mem _ hq, rfl, hb⟩
      · exact Or.inl ⟨iv, List.mem_cons_self _ _, rfl, hb⟩
      · exact Or.inr h
    · rintro (⟨q, hq, rfl, hb⟩ | h)
      · rcases List.mem_cons.mp hq with rfl | hq2
        · exact Or.inr (Or.inl ⟨hb, rfl⟩)
        · exact Or.inl ⟨q, hq2, rfl, hb⟩
      · exact Or.inr (Or.inr h)

theorem mem_enumFrom_of_lt {α : Type} :
    ∀ (l : List α) (k j : Nat) (h : j < l.length), (k + j, l[j]) ∈ l.enumFrom k
  | [], _, _, h => absurd h (by simp)
  | x :: rest, k, 0, h => by simp [List.enumFrom]
  | x :: rest, k, j + 1, h => by
    rw [List.enumFrom]
    have hj : j < rest.length := by simpa using h
    have := mem_enumFrom_of_lt rest (k + 1) j hj
    have harith : k + (j + 1) = k + 1 + j := by omega
    rw [harith]
    exact List.mem_cons_of_mem _ (by simpa using this)

theorem mem_enum_of_lt {α : Type} (l : List α) (j : Nat) (h : j < l.length) :
    (j, l[j]) ∈ l.enum := by
  have := mem_enumFrom_of_lt l 0 j h
  simpa [List.enum] using this

theorem lookupVS_buildVd (st : St) (b : Axis) (j : Nat) :
    j ∈ (lookupVS (buildVd st) b).getD [] ↔
      (j < st.length ∧ b ∈ axesOf (st.getD j [])) := by
  rw [buildVd, lookupVS_buildFold]
  simp only [lookupVS, Option.getD_none, List.not_mem_nil, or_false]
  constructor
  · rintro ⟨iv, hiv, rfl, hb⟩
    obtain ⟨hlt, hx⟩ := List.mem_enum hiv
    refine ⟨hlt, ?_⟩
    rw [List.getD_eq_getElem _ _ hlt, ← hx]
    exact hb
  · rintro ⟨hlt, hb⟩
    refine ⟨(j, st[j]), mem_enum_of_lt st j hlt, rfl, ?_⟩
    rw [List.getD_eq_getElem _ _ hlt] at hb
    exact hb

theorem keys_addVar (i : Nat) (a : Axis) : ∀ (vd : VarDict),
    (addVar i a vd).map Prod.fst =
      if a ∈ vd.map Prod.fst then vd.map Prod.fst else vd.map Prod.fst ++ [a]
  | [] => by simp [addVar]
  | (q, qs) :: rest => by
    rw [addVar]
    by_cases hq : q = a
    · subst hq
      simp
    · rw [if_neg hq]
      rw [List.map_cons, keys_addVar i a rest, List.map_cons]
      by_cases ha : a ∈ rest.map Prod.fst
      · rw [if_pos ha, if_pos (by simp [ha])]
      · have : ¬ a ∈ (q :: rest.map Prod.fst) := by
          simp [ha]
          intro hc
          exact hq hc.symm
        rw [if_neg ha, if_neg (by simpa using this)]
        simp

theorem keys_addVar_nodup (i : Nat) (a : Axis) (vd : VarDict)
    (hnd : (vd.map Prod.fst).Nodup) : ((addVar i a vd).map Prod.fst).Nodup := by
  rw [keys_addVar]
  by_cases ha : a ∈ vd.map Prod.fst
  · rw [if_pos ha]
    exact hnd
  · rw [if_neg ha]
    apply List.Nodup.append hnd (List.nodup_singleton a)
    intro x hx hx2
    rw [List.mem_singleton] at hx2
    subst hx2
    exact ha hx

theorem mem_keys_addVar {i : Nat} {a : Axis} {vd : VarDict} {b : Axis} :
    b ∈ (addVar i a vd).map Prod.fst ↔ (b = a ∨ b ∈ vd.map Prod.fst) := by
  rw [keys_addVar]
  by_cases ha : a ∈ vd.map Prod.fst
  · rw [if_pos ha]
    constructor
    · exact Or.inr
    · rintro (rfl | h)
      · exact ha
      · exact h
  · rw [if_neg ha]
    simp [or_comm]

theorem keys_addAxes_nodup (i : Nat) : ∀ (axs : List Axis) (vd : VarDict),
    (vd.map Prod.fst).Nodup → ((addAxes i axs vd).map Prod.fst).Nodup
  | [], vd => fun h => h
  | a :: axs, vd => fun h => by
    rw [addAxes, List.foldl_cons]
    exact keys_addAxes_nodup i axs _ (keys_addVar_nodup i a vd h)

theorem mem_keys_addAxes {i : Nat} : ∀ {axs : List Axis} {vd : VarDict} {b : Axis},
    b ∈ (addAxes i axs vd).map Prod.fst ↔ (b ∈ axs ∨ b ∈ vd.map Prod.fst)
  | [], vd, b => by simp [addAxes]
  | a :: axs, vd, b => by
    rw [addAxes, List.foldl_cons]
    have : axs.foldl (fun vd a => addVar i a vd) (addVar i a vd) = addAxes i axs (addVar i a vd) := by
      rw [addAxes]
    rw [this, mem_keys_addAxes, mem_keys_addVar]
    constructor
    · rintro (h | (rfl | h))
      · exact Or.inl (List.mem_cons_of_mem _ h)
      · exact Or.inl (List.mem_cons_self _ _)
      · exact Or.inr h
    · rintro (h | h)
      · rcases List.mem_cons.mp h with rfl | h2
        · exact Or.inr (Or.inl rfl)
        · exact Or.inl h2
      · exact Or.inr (Or.inr h)

theorem keys_buildFold_nodup :
    ∀ (l : List (Nat × VOrder)) (vd : VarDict),
      (vd.map Prod.fst).Nodup →
      ((l.foldl (fun vd iv => addAxes iv.1 (axesOf iv.2) vd) vd).map Prod.fst).Nodup
  | [], vd => fun h => h
  | iv :: l, vd => fun h => by
    rw [List.foldl_cons]
    exact keys_buildFold_nodup l _ (keys_addAxes_nodup iv.1 (axesOf iv.2) vd h)

theorem keys_buildVd_nodup (st : St) : ((buildVd st).map Prod.fst).Nodup := by
  rw [buildVd]
  exact keys_buildFold_nodup st.enum [] (by simp)

theorem mem_keys_buildFold :
    ∀ (l : List (Nat × VOrder)) (vd : VarDict) (b : Axis),
      b ∈ ((l.foldl (fun vd iv => addAxes iv.1 (axesOf iv.2) vd) vd).map Prod.fst) ↔
        ((∃ iv ∈ l, b ∈ axesOf iv.2) ∨ b ∈ vd.map Prod.fst)
  | [], vd, b => by simp
  | iv :: l, vd, b => by
    rw [List.foldl_cons, mem_keys_buildFold l _ b, mem_keys_addAxes]
    constructor
    · rintro (⟨q, hq, hb⟩ | (h | h))
      · exact Or.inl ⟨q, List.mem_cons_of_mem _ hq, hb⟩
      · exact Or.inl ⟨iv, List.mem_cons_self _ _, h⟩
      · exact Or.inr h
    · rintro (⟨q, hq, hb⟩ | h)
      · rcases List.mem_cons.mp hq with rfl | hq2
        · exact Or.inr (Or.inl hb)
        · exact Or.inl ⟨q, hq2, hb⟩
      · exact Or.inr (Or.inr h)

theorem mem_keys_buildVd {st : St} {b : Axis} :
    b ∈ (buildVd st).map Prod.fst ↔ ∃ j, j < st.length ∧ b ∈ axesOf (st.getD j []) := by
  rw [buildVd, mem_keys_buildFold]
  simp only [List.map_nil, List.not_mem_nil, or_false]
  constructor
  · rintro ⟨iv, hiv, hb⟩
    obtain ⟨hlt, hx⟩ := List.mem_enum hiv
    refine ⟨iv.1, hlt, ?_⟩
    rw [List.getD_eq_getElem _ _ hlt, ← hx]
    exact hb
  · rintro ⟨j, hlt, hb⟩
    refine ⟨(j, st[j]), mem_enum_of_lt st j hlt, ?_⟩
    rw [List.getD_eq_getElem _ _ hlt] at hb
    exact hb

theorem mem_iff_lookupVS : ∀ {vd : VarDict},
    (vd.map Prod.fst).Nodup → ∀ {p : Axis × VarSet},
      (p ∈ vd ↔ lookupVS vd p.1 = some p.2)
  | [], _, p => by simp [lookupVS]
  | (q, qs) :: rest, hnd, p => by
    rw [List.map_cons, List.nodup_cons] at hnd
    by_cases hq : q = p.1
    · rw [hq, lookupVS_cons_self]
      constructor
      · intro hp
        rcases List.mem_cons.mp hp with h1 | hp2
        · rw [h1]
        · exfalso
          apply hnd.1
          rw [hq]
          have hm := List.mem_map_of_mem Prod.fst hp2
          exact hm
      · intro hp
        injection hp with hp2
        have hpe : p = (q, qs) := by
          rw [Prod.ext_iff]
          exact ⟨hq.symm, hp2.symm⟩
        rw [hpe]
        exact List.mem_cons_self _ _
    · rw [lookupVS_cons_ne hq]
      rw [List.mem_cons, mem_iff_lookupVS hnd.2]
      constructor
      · rintro (rfl | h)
        · exact absurd rfl hq
        · exact h
      · exact Or.inr


/-! ## Preservation of the loop invariant by one merge -/

theorem merge_step_inv {st0 : St} {vd : VarDict} {st : St} {c : Nat}
    (inv : LoopInv st0 vd st c) {a1 : Axis} {vs1 : VarSet} {a2 : Axis}
    (hfind : findOuter st vd vd = some (a1, vs1, a2)) :
    LoopInv st0 (eraseKey a2 (eraseKey a1 (vd ++ [(c, vs1)])))
      (applyMerge vs1 a1 a2 c st) (c + 1) ∧
    MergeSound st a1 a2 := by
  obtain ⟨hmem1, vs2, hmem2, hne, hguard⟩ := findOuter_spec hfind
  obtain ⟨hsame, hadj⟩ := guardOk_spec hguard
  have hacc1 := inv.acc _ hmem1
  have hacc2 := inv.acc _ hmem2
  have hfacts : ∀ i ∈ vs1, i < st.length ∧ a1 ∈ axesOf (st.getD i []) ∧
      a2 ∈ axesOf (st.getD i []) ∧
      idxOfA (axesOf (st.getD i [])) a1 + 1 = idxOfA (axesOf (st.getD i [])) a2 := by
    intro i hi
    obtain ⟨hlt, ha1⟩ := (hacc1 i).1 hi
    obtain ⟨hlt2, ha2⟩ := (hacc2 i).1 ((hsame i).1 hi)
    have hadji := hadj i hi
    simp only [axIdx] at hadji
    exact ⟨hlt, ha1, ha2, hadji⟩
  have hcfresh : ∀ i, i < st.length → c ∉ axesOf (st.getD i []) := by
    intro i hi hc
    have hlt := inv.freshSt i hi c hc
    exact absurd hlt (lt_irrefl c)
  have hlen' : (applyMerge vs1 a1 a2 c st).length = st.length :=
    applyMerge_length vs1 a1 a2 c st
  have hsound : MergeSound st a1 a2 := by
    intro i hi
    constructor
    · constructor
      · intro ha1
        have hv1 : i ∈ vs1 := (hacc1 i).2 ⟨hi, ha1⟩
        exact ((hacc2 i).1 ((hsame i).1 hv1)).2
      · intro ha2
        have hv2 : i ∈ vs2 := (hacc2 i).2 ⟨hi, ha2⟩
        exact ((hacc1 i).1 ((hsame i).2 hv2)).2
    · intro ha1
      have hv1 : i ∈ vs1 := (hacc1 i).2 ⟨hi, ha1⟩
      have := hadj i hv1
      simpa [axIdx] using this
  have hkeysApp : ((vd ++ [(c, vs1)]).map Prod.fst).Nodup := by
    rw [List.map_append]
    apply List.Nodup.append inv.keysNodup (by simp)
    intro x hx hx2
    simp only [List.map_cons, List.map_nil, List.mem_singleton] at hx2
    subst hx2
    obtain ⟨p, hp, hpc⟩ := List.mem_map.mp hx
    have hlt := inv.freshVd p hp
    rw [hpc] at hlt
    exact absurd rfl (Nat.ne_of_lt hlt)
  have hkeys1 : ((eraseKey a1 (vd ++ [(c, vs1)])).map Prod.fst).Nodup :=
    ((eraseKey_sublist a1 _).map Prod.fst).nodup hkeysApp
  have hkeysNew :
      ((eraseKey a2 (eraseKey a1 (vd ++ [(c, vs1)]))).map Prod.fst).Nodup :=
    ((eraseKey_sublist a2 _).map Prod.fst).nodup hkeys1
  have hmemNew : ∀ p ∈ eraseKey a2 (eraseKey a1 (vd ++ [(c, vs1)])),
      p ∈ vd ++ [(c, vs1)] ∧ p.1 ≠ a1 ∧ p.1 ≠ a2 := by
    intro p hp
    have h2 := (mem_eraseKey hkeys1).1 hp
    have h1 := (mem_eraseKey hkeysApp).1 h2.1
    exact ⟨h1.1, h1.2, h2.2⟩
  refine ⟨?_, hsound⟩
  refine ⟨?_, ?_, ?_, ?_, ?_, hkeysNew, ?_, ?_, ?_⟩
  · rw [hlen']
    exact inv.len_eq
  · -- accuracy
    intro p hp i
    obtain ⟨hpApp, hpa1, hpa2⟩ := hmemNew p hp
    rw [hlen']
    rcases List.mem_append.mp hpApp with hpv | hpc
    · have haccp := inv.acc p hpv i
      have hplt : p.1 < c := inv.freshVd p hpv
      rw [haccp]
      by_cases hi : i < st.length
      · simp only [hi, true_and]
        rw [applyMerge_getD vs1 a1 a2 c st hi]
        by_cases hvi : i ∈ vs1
        · rw [if_pos hvi]
          obtain ⟨_, ha1, ha2, hadji⟩ := hfacts i hvi
          rw [spliceVar_mem_axes ha1 ha2 hadji c (inv.nodup i hi) p.1]
          constructor
          · intro hpm
            exact Or.inr ⟨hpm, hpa1, hpa2⟩
          · rintro (hpm | ⟨hpm, _, _⟩)
            · exact absurd hpm (Nat.ne_of_lt hplt)
            · exact hpm
        · rw [if_neg hvi]
      · simp [hi]
    · have hpeq : p = (c, vs1) := by simpa using hpc
      subst hpeq
      simp only
      constructor
      · intro hi
        obtain ⟨hlt, ha1, ha2, hadji⟩ := hfacts i hi
        refine ⟨hlt, ?_⟩
        rw [applyMerge_getD vs1 a1 a2 c st hlt, if_pos hi]
        rw [spliceVar_mem_axes ha1 ha2 hadji c (inv.nodup i hlt) c]
        exact Or.inl rfl
      · rintro ⟨hlt, hc⟩
        by_cases hvi : i ∈ vs1
        · exact hvi
        · rw [applyMerge_getD vs1 a1 a2 c st hlt, if_neg hvi] at hc
          exact absurd hc (hcfresh i hlt)
  · -- nodup
    intro i hi
    rw [hlen'] at hi
    rw [applyMerge_getD vs1 a1 a2 c st hi]
    by_cases hvi : i ∈ vs1
    · rw [if_pos hvi]
      obtain ⟨_, ha1, ha2, hadji⟩ := hfacts i hvi
      exact spliceVar_nodup ha1 ha2 hadji c (inv.nodup i hi) (hcfresh i hi)
    · rw [if_neg hvi]
      exact inv.nodup i hi
  · -- freshness of the state
    intro i hi a ha
    rw [hlen'] at hi
    rw [applyMerge_getD vs1 a1 a2 c st hi] at ha
    by_cases hvi : i ∈ vs1
    · rw [if_pos hvi] at ha
      obtain ⟨_, ha1, ha2, hadji⟩ := hfacts i hvi
      rw [spliceVar_mem_axes ha1 ha2 hadji c (inv.nodup i hi) a] at ha
      rcases ha with hac | ⟨ham, _, _⟩
      · rw [hac]
        exact Nat.lt_succ_self c
      · exact Nat.lt_succ_of_lt (inv.freshSt i hi a ham)
    · rw [if_neg hvi] at ha
      exact Nat.lt_succ_of_lt (inv.freshSt i hi a ha)
  · -- freshness of the dictionary keys
    intro p hp
    obtain ⟨hpApp, _, _⟩ := hmemNew p hp
    rcases List.mem_append.mp hpApp with hpv | hpc
    · exact Nat.lt_succ_of_lt (inv.freshVd p hpv)
    · have hpeq : p = (c, vs1) := by simpa using hpc
      subst hpeq
      exact Nat.lt_succ_self c
  · -- product preservation
    intro i hi
    rw [hlen'] at hi
    rw [applyMerge_getD vs1 a1 a2 c st hi]
    by_cases hvi : i ∈ vs1
    · rw [if_pos hvi]
      obtain ⟨_, ha1, ha2, hadji⟩ := hfacts i hvi
      rw [spliceVar_prodExt ha1 ha2 hadji c]
      exact inv.prodEq i hi
    · rw [if_neg hvi]
      exact inv.prodEq i hi
  · -- dimensionality never grows
    intro i hi
    rw [hlen'] at hi
    rw [applyMerge_getD vs1 a1 a2 c st hi]
    by_cases hvi : i ∈ vs1
    · rw [if_pos hvi]
      obtain ⟨_, ha1, ha2, hadji⟩ := hfacts i hvi
      have h1 := spliceVar_length ha1 ha2 hadji c
      have h2 := inv.lenLe i hi
      omega
    · rw [if_neg hvi]
      exact inv.lenLe i hi
  · -- singleton variables are untouched
    intro i hi x hx
    rw [hlen'] at hi
    have hkeep := inv.scalKeep i hi x hx
    rw [applyMerge_getD vs1 a1 a2 c st hi]
    by_cases hvi : i ∈ vs1
    · exfalso
      obtain ⟨_, ha1, ha2, _⟩ := hfacts i hvi
      rw [hkeep] at ha1 ha2
      simp only [axesOf, List.map_cons, List.map_nil, List.mem_singleton] at ha1 ha2
      exact hne (ha1.trans ha2.symm)
    · rw [if_neg hvi]
      exact hkeep


/-! ## The merge loop maintains the invariant; its log is sound -/

theorem mergeLoop_inv {st0 : St} :
    ∀ (fuel : Nat) (vd : VarDict) (st : St) (c : Nat),
      LoopInv st0 vd st c →
      LoopInv st0 (mergeLoop fuel vd st c).1 (mergeLoop fuel vd st c).2.1
          (mergeLoop fuel vd st c).2.2.1 ∧
      ∀ e ∈ (mergeLoop fuel vd st c).2.2.2, MergeSound e.1 e.2.1 e.2.2
  | 0, vd, st, c => fun h => ⟨h, by simp [mergeLoop]⟩
  | fuel + 1, vd, st, c => fun h => by
    cases hfind : findOuter st vd vd with
    | none =>
      have he : mergeLoop (fuel + 1) vd st c = (vd, st, c, []) := by
        rw [mergeLoop, hfind]
      rw [he]
      exact ⟨h, by simp⟩
    | some trip =>
      obtain ⟨a1, vs1, a2⟩ := trip
      obtain ⟨hinv2, hsound⟩ := merge_step_inv h hfind
      have he : mergeLoop (fuel + 1) vd st c =
          ((mergeLoop fuel (eraseKey a2 (eraseKey a1 (vd ++ [(c, vs1)])))
              (applyMerge vs1 a1 a2 c st) (c + 1)).1,
           (mergeLoop fuel (eraseKey a2 (eraseKey a1 (vd ++ [(c, vs1)])))
              (applyMerge vs1 a1 a2 c st) (c + 1)).2.1,
           (mergeLoop fuel (eraseKey a2 (eraseKey a1 (vd ++ [(c, vs1)])))
              (applyMerge vs1 a1 a2 c st) (c + 1)).2.2.1,
           (st, a1, a2) ::
           (mergeLoop fuel (eraseKey a2 (eraseKey a1 (vd ++ [(c, vs1)])))
              (applyMerge vs1 a1 a2 c st) (c + 1)).2.2.2) := by
        rw [mergeLoop, hfind]
      rw [he]
      obtain ⟨hinv3, hlog⟩ := mergeLoop_inv fuel _ _ _ hinv2
      refine ⟨hinv3, ?_⟩
      intro e he2
      rcases List.mem_cons.mp he2 with rfl | he3
      · exact hsound
      · exact hlog e he3


/-! ## The initial state of the merge loop satisfies the invariant -/

theorem foldr_max_le {l : List Nat} {a : Nat} (h : a ∈ l) : a ≤ l.foldr max 0 := by
  induction l with
  | nil => cases h
  | cons b rest ih =>
    rw [List.foldr_cons]
    rcases List.mem_cons.mp h with rfl | h2
    · exact le_max_left _ _
    · exact le_trans (ih h2) (le_max_right _ _)

theorem maxAxisId_spec {varList : St} {i : Nat} (hi : i < varList.length) {a : Axis}
    (ha : a ∈ axesOf (varList.getD i [])) : a ≤ maxAxisId varList := by
  rw [maxAxisId]
  apply foldr_max_le
  rw [List.mem_flatten]
  refine ⟨axesOf (varList.getD i []), ?_, ha⟩
  apply List.mem_map_of_mem
  rw [List.getD_eq_getElem _ _ hi]
  exact List.getElem_mem hi

theorem dropUnitAxes_axes {scal : Axis} {v : VOrder} {a : Axis}
    (ha : a ∈ axesOf (dropUnitAxes scal v)) : a = scal ∨ a ∈ axesOf v := by
  simp only [dropUnitAxes] at ha
  by_cases hc : ((v.filter (fun p => p.2 != 1)).isEmpty && (prodExt v == 1)) = true
  · rw [if_pos hc] at ha
    simp only [axesOf, List.map_cons, List.map_nil, List.mem_singleton] at ha
    exact Or.inl ha
  · rw [if_neg hc] at ha
    right
    obtain ⟨p, hp, rfl⟩ := List.mem_map.mp ha
    exact List.mem_map_of_mem Prod.fst (List.mem_of_mem_filter hp)

theorem dropUnitAxes_nodup {scal : Axis} {v : VOrder} (h : (axesOf v).Nodup) :
    (axesOf (dropUnitAxes scal v)).Nodup := by
  simp only [dropUnitAxes]
  by_cases hc : ((v.filter (fun p => p.2 != 1)).isEmpty && (prodExt v == 1)) = true
  · rw [if_pos hc]
    simp [axesOf]
  · rw [if_neg hc]
    exact ((List.filter_sublist v).map Prod.fst).nodup h

theorem prodExt_filter_unit : ∀ (v : VOrder),
    prodExt (v.filter (fun p => p.2 != 1)) = prodExt v
  | [] => rfl
  | p :: rest => by
    rw [List.filter_cons]
    by_cases hp : p.2 = 1
    · rw [if_neg (by simpa using hp)]
      rw [prodExt_filter_unit rest]
      simp [prodExt, hp]
    · rw [if_pos (by simpa using hp)]
      simp only [prodExt, List.map_cons, List.prod_cons]
      have := prodExt_filter_unit rest
      simp only [prodExt] at this
      rw [this]

theorem dropUnitAxes_prodExt (scal : Axis) (v : VOrder) :
    prodExt (dropUnitAxes scal v) = prodExt v := by
  simp only [dropUnitAxes]
  by_cases hc : ((v.filter (fun p => p.2 != 1)).isEmpty && (prodExt v == 1)) = true
  · rw [if_pos hc]
    rw [Bool.and_eq_true] at hc
    have h2 : prodExt v = 1 := by simpa using hc.2
    rw [h2]
    simp [prodExt]
  · rw [if_neg hc]
    exact prodExt_filter_unit v

theorem dropUnitAxes_length {scal : Axis} {v : VOrder} (h : v ≠ []) :
    (dropUnitAxes scal v).length ≤ v.length := by
  simp only [dropUnitAxes]
  by_cases hc : ((v.filter (fun p => p.2 != 1)).isEmpty && (prodExt v == 1)) = true
  · rw [if_pos hc]
    cases v with
    | nil => exact absurd rfl h
    | cons p rest => simp
  · rw [if_neg hc]
    exact (List.filter_sublist v).length_le

theorem simplifyInit_length (varList : St) :
    (simplifyInit varList).length = varList.length := by
  simp [simplifyInit]

theorem simplifyInit_getD {varList : St} {i : Nat} (hi : i < varList.length) :
    (simplifyInit varList).getD i []
      = dropUnitAxes (axis_scalar varList) (varList.getD i []) := by
  rw [List.getD_eq_getElem?_getD, simplifyInit, List.getElem?_map,
    List.getElem?_eq_getElem hi, List.getD_eq_getElem _ _ hi]
  rfl

theorem getD_mem {l : St} {i : Nat} (hi : i < l.length) : l.getD i [] ∈ l := by
  rw [List.getD_eq_getElem _ _ hi]
  exact List.getElem_mem hi

theorem initial_inv (varList : St) (hnd : ∀ v ∈ varList, (axesOf v).Nodup) :
    LoopInv (simplifyInit varList) (buildVd (simplifyInit varList))
      (simplifyInit varList) (axis_scalar varList + 1) := by
  have hfresh : ∀ i, i < (simplifyInit varList).length →
      ∀ a ∈ axesOf ((simplifyInit varList).getD i []), a < axis_scalar varList + 1 := by
    intro i hi a ha
    have hi2 : i < varList.length := by
      rw [← simplifyInit_length varList]
      exact hi
    rw [simplifyInit_getD hi2] at ha
    rcases dropUnitAxes_axes ha with rfl | h2
    · exact Nat.lt_succ_self _
    · have hle := maxAxisId_spec hi2 h2
      rw [axis_scalar]
      exact Nat.lt_succ_of_lt (Nat.lt_succ_of_le hle)
  refine ⟨rfl, ?_, ?_, hfresh, ?_, keys_buildVd_nodup _, fun i hi => rfl,
    fun i hi => le_refl _, fun i hi x hx => hx⟩
  · intro p hp i
    have hl := (mem_iff_lookupVS (keys_buildVd_nodup (simplifyInit varList))).1 hp
    have := lookupVS_buildVd (simplifyInit varList) p.1 i
    rw [hl] at this
    simpa using this
  · intro i hi
    have hi2 : i < varList.length := by
      rw [← simplifyInit_length varList]
      exact hi
    rw [simplifyInit_getD hi2]
    exact dropUnitAxes_nodup (hnd _ (getD_mem hi2))
  · intro p hp
    have hk : p.1 ∈ (buildVd (simplifyInit varList)).map Prod.fst :=
      List.mem_map_of_mem Prod.fst hp
    obtain ⟨j, hj, hja⟩ := mem_keys_buildVd.1 hk
    exact hfresh j hj p.1 hja


/-! ## Claims C4, C5 and C10 on the simplifier -/

theorem _simplify_orders_run (varList : St)
    (hnd : ∀ v ∈ varList, (axesOf v).Nodup) :
    (∃ vd c, LoopInv (simplifyInit varList) vd (_simplify_orders varList).1 c) ∧
    (∀ e ∈ (_simplify_orders varList).2, MergeSound e.1 e.2.1 e.2.2) := by
  have h0 := initial_inv varList hnd
  obtain ⟨hinv, hlog⟩ := mergeLoop_inv ((buildVd (simplifyInit varList)).length + 1)
    (buildVd (simplifyInit varList)) (simplifyInit varList) (axis_scalar varList + 1) h0
  exact ⟨⟨_, _, hinv⟩, hlog⟩

/-- C4: every merge ever performed by `_simplify_orders` is sound: at the
moment two axes `a1`, `a2` are replaced by one synthetic axis, the set of
variables whose (current) order contains `a1` is exactly the set whose
order contains `a2`, and in every such order `a2` occupies the position
immediately after `a1`; a pair violating either condition is never merged.
(The hypothesis is the `Order` invariant that no axis repeats within one
variable's order.) -/
theorem _simplify_orders_merge_sound (varList : St)
    (hnd : ∀ v ∈ varList, (axesOf v).Nodup) :
    ∀ e ∈ (_simplify_orders varList).2, MergeSound e.1 e.2.1 e.2.2 :=
  (_simplify_orders_run varList hnd).2

/-- Witness for C4 on two variables with the same two-axis order: exactly
one merge happens and it satisfies the soundness condition. -/
theorem _simplify_orders_merge_sound_witness :
    (∀ v ∈ ([[(0, 2), (1, 3)], [(0, 2), (1, 3)]] : St), (axesOf v).Nodup) ∧
    (_simplify_orders [[(0, 2), (1, 3)], [(0, 2), (1, 3)]]).2.length = 1 ∧
    (∀ e ∈ (_simplify_orders [[(0, 2), (1, 3)], [(0, 2), (1, 3)]]).2,
      MergeSound e.1 e.2.1 e.2.2) :=
  ⟨by decide, by decide, _simplify_orders_merge_sound _ (by decide)⟩

/-- C5: for every variable in the input list, the product of the extents
of its simplified rows returned by `_simplify_orders` equals the product of
the extents of its original order (its total element count): dropping unit
axes and merging adjacent axes never change this product. -/
theorem _simplify_orders_preserves_size (varList : St)
    (hnd : ∀ v ∈ varList, (axesOf v).Nodup) :
    ∀ i, i < varList.length →
      prodExt ((_simplify_orders varList).1.getD i [])
        = prodExt (varList.getD i []) := by
  obtain ⟨⟨vd, c, hinv⟩, _⟩ := _simplify_orders_run varList hnd
  intro i hi
  have hi2 : i < (_simplify_orders varList).1.length := by
    rw [hinv.len_eq, simplifyInit_length]
    exact hi
  rw [hinv.prodEq i hi2, simplifyInit_getD hi]
  exact dropUnitAxes_prodExt _ _

/-- Witness for C5: a variable with a unit axis and two merged axes keeps
its element count `6`. -/
theorem _simplify_orders_preserves_size_witness :
    (∀ v ∈ ([[(0, 2), (1, 1), (2, 3)]] : St), (axesOf v).Nodup) ∧
    prodExt ((_simplify_orders [[(0, 2), (1, 1), (2, 3)]]).1.getD 0 []) = 6 ∧
    (∀ i, i < ([[(0, 2), (1, 1), (2, 3)]] : St).length →
      prodExt ((_simplify_orders [[(0, 2), (1, 1), (2, 3)]]).1.getD i [])
        = prodExt (([[(0, 2), (1, 1), (2, 3)]] : St).getD i [])) :=
  ⟨by decide, by decide, _simplify_orders_preserves_size _ (by decide)⟩

/-- C10: within one call of `_simplify_orders` a single sentinel scalar
axis is created and reused: every input variable all of whose extents are
`1` (so that the unit-drop phase leaves no axes and its element count is
`1`) ends up with exactly the order `[(axis_scalar, 1)]` — the same axis
identity for all such variables of the call, not a fresh one per variable. -/
theorem _simplify_orders_shared_scalar (varList : St)
    (hnd : ∀ v ∈ varList, (axesOf v).Nodup) :
    ∀ i, i < varList.length →
      (varList.getD i []).filter (fun p => p.2 != 1) = [] →
      prodExt (varList.getD i []) = 1 →
      (_simplify_orders varList).1.getD i [] = [(axis_scalar varList, 1)] := by
  obtain ⟨⟨vd, c, hinv⟩, _⟩ := _simplify_orders_run varList hnd
  intro i hi hf hp
  have hi2 : i < (_simplify_orders varList).1.length := by
    rw [hinv.len_eq, simplifyInit_length]
    exact hi
  apply hinv.scalKeep i hi2
  rw [simplifyInit_getD hi]
  simp only [dropUnitAxes]
  rw [hf]
  rw [List.getD_eq_getElem?_getD] at hp
  simp [hp]

/-- Witness for C10: two all-unit variables (with different original axes)
both receive the one sentinel axis `3`. -/
theorem _simplify_orders_shared_scalar_witness :
    (∀ v ∈ ([[(0, 1)], [(1, 1), (2, 1)]] : St), (axesOf v).Nodup) ∧
    (_simplify_orders [[(0, 1)], [(1, 1), (2, 1)]]).1
      = [[(axis_scalar [[(0, 1)], [(1, 1), (2, 1)]], 1)],
         [(axis_scalar [[(0, 1)], [(1, 1), (2, 1)]], 1)]] ∧
    (∀ i, i < ([[(0, 1)], [(1, 1), (2, 1)]] : St).length →
      (([[(0, 1)], [(1, 1), (2, 1)]] : St).getD i []).filter (fun p => p.2 != 1) = [] →
      prodExt (([[(0, 1)], [(1, 1), (2, 1)]] : St).getD i []) = 1 →
      (_simplify_orders [[(0, 1)], [(1, 1), (2, 1)]]).1.getD i []
        = [(axis_scalar [[(0, 1)], [(1, 1), (2, 1)]], 1)]) :=
  ⟨by decide, by decide, _simplify_orders_shared_scalar _ (by decide)⟩


/-! ## The re-ordering phase: the global axis sequence (claim C6) -/

theorem mem_insertIdx {key : Nat → Nat} {i j : Nat} : ∀ {l : List Nat},
    j ∈ insertIdx key i l ↔ (j = i ∨ j ∈ l)
  | [] => by simp [insertIdx]
  | x :: rest => by
    rw [insertIdx]
    by_cases hk : key i < key x
    · rw [if_pos hk]
      simp [List.mem_cons]
    · rw [if_neg hk]
      rw [List.mem_cons, mem_insertIdx, List.mem_cons]
      tauto

theorem mem_sortIdx_fold {key : Nat → Nat} {j : Nat} :
    ∀ (l : List Nat) (acc : List Nat),
      j ∈ l.foldl (fun acc i => insertIdx key i acc) acc ↔ (j ∈ acc ∨ j ∈ l)
  | [], acc => by simp
  | x :: rest, acc => by
    rw [List.foldl_cons, mem_sortIdx_fold rest _, mem_insertIdx, List.mem_cons]
    tauto

theorem mem_sortIdx {key : Nat → Nat} {j : Nat} {l : List Nat} :
    j ∈ sortIdx key l ↔ j ∈ l := by
  rw [sortIdx, mem_sortIdx_fold]
  simp

theorem globalFold_grow (st : St) :
    ∀ (l : List Nat) (acc : List Axis) (b : Axis), b ∈ acc →
      b ∈ l.foldl (fun axes i =>
        axes ++ ((axesOf (st.getD i [])).filter (fun a => !(axes.contains a)))) acc
  | [], acc, b => fun h => h
  | x :: rest, acc, b => fun h => by
    rw [List.foldl_cons]
    exact globalFold_grow st rest _ b (List.mem_append.mpr (Or.inl h))

theorem globalFold_complete (st : St) :
    ∀ (l : List Nat) (acc : List Axis) (i : Nat), i ∈ l →
      ∀ b ∈ axesOf (st.getD i []),
        b ∈ l.foldl (fun axes i =>
          axes ++ ((axesOf (st.getD i [])).filter (fun a => !(axes.contains a)))) acc
  | [], _, _, h => absurd h (List.not_mem_nil _)
  | x :: rest, acc, i, h => fun b hb => by
    rw [List.foldl_cons]
    rcases List.mem_cons.mp h with rfl | h2
    · apply globalFold_grow
      by_cases hbacc : b ∈ acc
      · exact List.mem_append.mpr (Or.inl hbacc)
      · refine List.mem_append.mpr (Or.inr ?_)
        rw [List.mem_filter]
        refine ⟨hb, ?_⟩
        simp [hbacc]
    · exact globalFold_complete st rest _ i h2 b hb

theorem globalFold_nodup (st : St) (hnd : ∀ i, (axesOf (st.getD i [])).Nodup) :
    ∀ (l : List Nat) (acc : List Axis), acc.Nodup →
      (l.foldl (fun axes i =>
        axes ++ ((axesOf (st.getD i [])).filter (fun a => !(axes.contains a)))) acc).Nodup
  | [], acc => fun h => h
  | x :: rest, acc => fun h => by
    rw [List.foldl_cons]
    apply globalFold_nodup st hnd rest
    apply List.Nodup.append h ((List.filter_sublist (axesOf (st.getD x []))).nodup (hnd x))
    intro b hbacc hbf
    rw [List.mem_filter] at hbf
    have := hbf.2
    simp only [Bool.not_eq_true'] at this
    exact absurd hbacc (by simpa using this)

theorem globalAxes_complete (varList : St) (st : St) {i : Nat}
    (hi : i < varList.length) :
    ∀ b ∈ axesOf (st.getD i []), b ∈ globalAxes varList st := by
  intro b hb
  rw [globalAxes]
  apply globalFold_complete st _ [] i ?_ b hb
  rw [mem_sortIdx, List.mem_range]
  exact hi

theorem globalAxes_nodup (varList : St) (st : St)
    (hnd : ∀ i, (axesOf (st.getD i [])).Nodup) :
    (globalAxes varList st).Nodup := by
  rw [globalAxes]
  exact globalFold_nodup st hnd _ [] List.nodup_nil


theorem idxOfA_filter_lt : ∀ {l : List Axis}, l.Nodup → ∀ {p : Axis → Bool} {a b : Axis},
    a ∈ l.filter p → b ∈ l.filter p →
    (idxOfA (l.filter p) a < idxOfA (l.filter p) b ↔ idxOfA l a < idxOfA l b)
  | [], _, p, a, b => fun ha _ => absurd ha (by simp)
  | x :: rest, hnd, p, a, b => fun ha hb => by
    rw [List.nodup_cons] at hnd
    rw [List.filter_cons] at ha hb ⊢
    by_cases hx : p x = true
    · rw [if_pos hx] at ha hb ⊢
      by_cases hxa : x = a
      · subst hxa
        by_cases hxb : x = b
        · subst hxb
          simp [idxOfA]
        · have e1 : idxOfA (x :: List.filter p rest) x = 0 := by simp [idxOfA]
          have e2 : idxOfA (x :: rest) x = 0 := by simp [idxOfA]
          have e3 : idxOfA (x :: List.filter p rest) b
              = idxOfA (List.filter p rest) b + 1 := by
            rw [idxOfA, if_neg hxb]
          have e4 : idxOfA (x :: rest) b = idxOfA rest b + 1 := by
            rw [idxOfA, if_neg hxb]
          rw [e1, e2, e3, e4]
          simp
      · by_cases hxb : x = b
        · subst hxb
          have e1 : idxOfA (x :: List.filter p rest) a
              = idxOfA (List.filter p rest) a + 1 := by
            rw [idxOfA, if_neg hxa]
          have e2 : idxOfA (x :: rest) a = idxOfA rest a + 1 := by
            rw [idxOfA, if_neg hxa]
          have e3 : idxOfA (x :: List.filter p rest) x = 0 := by simp [idxOfA]
          have e4 : idxOfA (x :: rest) x = 0 := by simp [idxOfA]
          rw [e1, e2, e3, e4]
          simp
        · have ha2 : a ∈ List.filter p rest := by
            rcases List.mem_cons.mp ha with h1 | h1
            · exact absurd h1.symm hxa
            · exact h1
          have hb2 : b ∈ List.filter p rest := by
            rcases List.mem_cons.mp hb with h1 | h1
            · exact absurd h1.symm hxb
            · exact h1
          have e1 : idxOfA (x :: List.filter p rest) a
              = idxOfA (List.filter p rest) a + 1 := by
            rw [idxOfA, if_neg hxa]
          have e2 : idxOfA (x :: List.filter p rest) b
              = idxOfA (List.filter p rest) b + 1 := by
            rw [idxOfA, if_neg hxb]
          have e3 : idxOfA (x :: rest) a = idxOfA rest a + 1 := by
            rw [idxOfA, if_neg hxa]
          have e4 : idxOfA (x :: rest) b = idxOfA rest b + 1 := by
            rw [idxOfA, if_neg hxb]
          rw [e1, e2, e3, e4, Nat.add_lt_add_iff_right, Nat.add_lt_add_iff_right]
          exact idxOfA_filter_lt hnd.2 ha2 hb2
    · rw [if_neg hx] at ha hb ⊢
      have hxa : ¬ (x = a) := by
        intro hc
        apply hnd.1
        rw [hc]
        exact List.mem_of_mem_filter ha
      have hxb : ¬ (x = b) := by
        intro hc
        apply hnd.1
        rw [hc]
        exact List.mem_of_mem_filter hb
      have e3 : idxOfA (x :: rest) a = idxOfA rest a + 1 := by
        rw [idxOfA, if_neg hxa]
      have e4 : idxOfA (x :: rest) b = idxOfA rest b + 1 := by
        rw [idxOfA, if_neg hxb]
      rw [e3, e4, Nat.add_lt_add_iff_right]
      exact idxOfA_filter_lt hnd.2 ha hb

theorem loopStructure_orders_getD (varList : St) {i : Nat} (hi : i < varList.length) :
    (_optimize_loop_structure varList).orders.getD i []
      = finalOrder varList (_simplify_orders varList).1 i := by
  simp only [_optimize_loop_structure]
  rw [List.getD_eq_getElem?_getD, List.getElem?_map]
  rw [List.getElem?_eq_getElem (by simpa using hi :
    i < (List.range varList.length).length)]
  rw [List.getElem_range]
  rfl

/-- C6: for every variable, the final re-ordered order produced by
`_optimize_loop_structure` is a subsequence of the accumulated global axis
sequence containing exactly the variable's own (simplified) axes; as a
consequence, any two variables place any two axes common to both of their
final orders in the same relative order. -/
theorem _optimize_loop_structure_global_order (varList : St)
    (hnd : ∀ v ∈ varList, (axesOf v).Nodup) :
    ∀ i, i < varList.length →
      ((_optimize_loop_structure varList).orders.getD i []).Sublist
          (globalAxes varList (_simplify_orders varList).1) ∧
      (∀ a, a ∈ (_optimize_loop_structure varList).orders.getD i [] ↔
          a ∈ axesOf ((_simplify_orders varList).1.getD i [])) ∧
      (∀ j, j < varList.length → ∀ a b,
        a ∈ (_optimize_loop_structure varList).orders.getD i [] →
        b ∈ (_optimize_loop_structure varList).orders.getD i [] →
        a ∈ (_optimize_loop_structure varList).orders.getD j [] →
        b ∈ (_optimize_loop_structure varList).orders.getD j [] →
        (idxOfA ((_optimize_loop_structure varList).orders.getD i []) a <
         idxOfA ((_optimize_loop_structure varList).orders.getD i []) b ↔
         idxOfA ((_optimize_loop_structure varList).orders.getD j []) a <
         idxOfA ((_optimize_loop_structure varList).orders.getD j []) b)) := by
  obtain ⟨⟨vd, c, hinv⟩, _⟩ := _simplify_orders_run varList hnd
  have hndall : ∀ k, (axesOf ((_simplify_orders varList).1.getD k [])).Nodup := by
    intro k
    by_cases hk : k < (_simplify_orders varList).1.length
    · exact hinv.nodup k hk
    · rw [List.getD_eq_getElem?_getD, List.getElem?_eq_none (by omega)]
      simp [axesOf]
  have hgnd := globalAxes_nodup varList (_simplify_orders varList).1 hndall
  intro i hi
  rw [loopStructure_orders_getD varList hi]
  have hmem : ∀ a, a ∈ finalOrder varList (_simplify_orders varList).1 i ↔
      a ∈ axesOf ((_simplify_orders varList).1.getD i []) := by
    intro a
    rw [finalOrder, List.mem_filter]
    constructor
    · rintro ⟨_, h2⟩
      simpa using h2
    · intro h
      exact ⟨globalAxes_complete varList ((_simplify_orders varList).1) hi a h,
        by simpa using h⟩
  refine ⟨List.filter_sublist _, hmem, ?_⟩
  intro j hj a b hai hbi haj hbj
  rw [loopStructure_orders_getD varList hj] at haj hbj ⊢
  rw [finalOrder] at hai hbi haj hbj
  rw [finalOrder, finalOrder]
  rw [idxOfA_filter_lt hgnd hai hbi, idxOfA_filter_lt hgnd haj hbj]

/-- Witness for C6 on the broadcast scenario: orders `(A)` and `(B, A)`
re-order to `(A)` and `(A, B)`. -/
theorem _optimize_loop_structure_global_order_witness :
    (∀ v ∈ ([[(0, 2)], [(1, 3), (0, 2)]] : St), (axesOf v).Nodup) ∧
    (_optimize_loop_structure [[(0, 2)], [(1, 3), (0, 2)]]).orders = [[0], [0, 1]] ∧
    (∀ i, i < ([[(0, 2)], [(1, 3), (0, 2)]] : St).length →
      ((_optimize_loop_structure [[(0, 2)], [(1, 3), (0, 2)]]).orders.getD i []).Sublist
          (globalAxes [[(0, 2)], [(1, 3), (0, 2)]]
            (_simplify_orders [[(0, 2)], [(1, 3), (0, 2)]]).1) ∧
      (∀ a, a ∈ (_optimize_loop_structure [[(0, 2)], [(1, 3), (0, 2)]]).orders.getD i [] ↔
          a ∈ axesOf ((_simplify_orders [[(0, 2)], [(1, 3), (0, 2)]]).1.getD i [])) ∧
      (∀ j, j < ([[(0, 2)], [(1, 3), (0, 2)]] : St).length → ∀ a b,
        a ∈ (_optimize_loop_structure [[(0, 2)], [(1, 3), (0, 2)]]).orders.getD i [] →
        b ∈ (_optimize_loop_structure [[(0, 2)], [(1, 3), (0, 2)]]).orders.getD i [] →
        a ∈ (_optimize_loop_structure [[(0, 2)], [(1, 3), (0, 2)]]).orders.getD j [] →
        b ∈ (_optimize_loop_structure [[(0, 2)], [(1, 3), (0, 2)]]).orders.getD j [] →
        (idxOfA ((_optimize_loop_structure [[(0, 2)], [(1, 3), (0, 2)]]).orders.getD i []) a <
         idxOfA ((_optimize_loop_structure [[(0, 2)], [(1, 3), (0, 2)]]).orders.getD i []) b ↔
         idxOfA ((_optimize_loop_structure [[(0, 2)], [(1, 3), (0, 2)]]).orders.getD j []) a <
         idxOfA ((_optimize_loop_structure [[(0, 2)], [(1, 3), (0, 2)]]).orders.getD j []) b))) :=
  ⟨by decide, by decide, _optimize_loop_structure_global_order _ (by decide)⟩


/-! ## Claim C2: which order the stride dictionaries are row-major for -/

/-- C2 counterexample: on the input with orders `(A)` and `(B, A)` (extents
`A = 2`, `B = 3`), variable `1` has final re-ordered order `[A, B]`, but its
stride dictionary — computed before the re-ordering — assigns `A` the
stride `1` although the product of the extents after `A` in the final order
is `3`; so the stride dictionaries are not row-major with respect to the
final re-ordered orders. -/
theorem stride_dicts_not_row_major_wrt_final :
    strideRowMajorWrtFinal [[(0, 2)], [(1, 3), (0, 2)]] = false ∧
    (_optimize_loop_structure [[(0, 2)], [(1, 3), (0, 2)]]).orders.getD 1 [] = [0, 1] ∧
    lookupExt ((_optimize_loop_structure [[(0, 2)], [(1, 3), (0, 2)]]).stride_dicts.getD 1 [])
      0 = some 1 ∧
    ((((_optimize_loop_structure [[(0, 2)], [(1, 3), (0, 2)]]).orders.getD 1 []).drop
        (idxOfA ((_optimize_loop_structure [[(0, 2)], [(1, 3), (0, 2)]]).orders.getD 1 []) 0
          + 1)).map
      (fun b =>
        (lookupExt ((_optimize_loop_structure
          [[(0, 2)], [(1, 3), (0, 2)]]).shape_dicts.getD 1 []) b).getD 0)).prod = 3 := by
  decide

theorem lookupExt_zip : ∀ {keys : List Axis} {vals : List Nat} {k : Nat} {a : Axis},
    keys.Nodup → keys[k]? = some a → keys.length ≤ vals.length →
    lookupExt (keys.zip vals) a = vals[k]?
  | [], _, k, a => fun _ h _ => by simp at h
  | x :: ks, [], k, a => fun _ _ hlen => by simp at hlen
  | x :: ks, y :: vs, 0, a => fun hnd h _ => by
    simp only [List.getElem?_cons_zero] at h
    injection h with h2
    subst h2
    rw [List.zip_cons_cons, lookupExt]
    simp
  | x :: ks, y :: vs, k + 1, a => fun hnd h hlen => by
    simp only [List.getElem?_cons_succ] at h
    rw [List.nodup_cons] at hnd
    have hxa : ¬ (x = a) := by
      intro hc
      apply hnd.1
      rw [hc]
      exact List.getElem?_mem h
    rw [List.zip_cons_cons, lookupExt, if_neg hxa]
    simp only [List.getElem?_cons_succ]
    exact lookupExt_zip hnd.2 h (by simpa using hlen)

theorem loopStructure_stride_getD (varList : St) {i : Nat} (hi : i < varList.length) :
    (_optimize_loop_structure varList).stride_dicts.getD i []
      = strideDictOf varList (_simplify_orders varList).1 i := by
  simp only [_optimize_loop_structure]
  rw [List.getD_eq_getElem?_getD, List.getElem?_map]
  rw [List.getElem?_eq_getElem (by simpa using hi :
    i < (List.range varList.length).length)]
  rw [List.getElem_range]
  rfl

theorem stridesOf_getElem? (varList st : St) (i k : Nat) (hk : k < origNdim varList i) :
    (stridesOf varList st i)[k]? = some (((shapesOf st i).drop (k + 1)).prod) := by
  rw [stridesOf, List.getElem?_map]
  rw [List.getElem?_eq_getElem (by simpa using hk :
    k < (List.range (origNdim varList i)).length)]
  rw [List.getElem_range]
  rfl

/-- C2 (amended): the stride dictionaries of `_optimize_loop_structure` are
row-major with respect to each variable's *simplified* order as returned by
`_simplify_orders` — the order the strides were computed from, *before* the
re-ordering phase, which does not recompute them: the stride of the axis at
position `k` is the product of the simplified extents strictly after
position `k` (in particular the last axis has stride `1`).  They are not in
general row-major with respect to the final re-ordered order. -/
theorem _optimize_loop_structure_stride_rowmajor_simplified (varList : St)
    (hnd : ∀ v ∈ varList, (axesOf v).Nodup)
    (hne : ∀ v ∈ varList, v ≠ []) :
    ∀ i, i < varList.length → ∀ k a,
      (axesOf ((_simplify_orders varList).1.getD i []))[k]? = some a →
      lookupExt ((_optimize_loop_structure varList).stride_dicts.getD i []) a
        = some (((shapesOf (_simplify_orders varList).1 i).drop (k + 1)).prod) := by
  obtain ⟨⟨vd, c, hinv⟩, _⟩ := _simplify_orders_run varList hnd
  intro i hi k a hk
  have hi2 : i < (_simplify_orders varList).1.length := by
    rw [hinv.len_eq, simplifyInit_length]
    exact hi
  have hknd := hinv.nodup i hi2
  obtain ⟨hklt, _⟩ := List.getElem?_eq_some.mp hk
  have hrowle : ((_simplify_orders varList).1.getD i []).length ≤ origNdim varList i := by
    have h1 := hinv.lenLe i hi2
    rw [simplifyInit_getD hi] at h1
    have h2 := @dropUnitAxes_length (axis_scalar varList) (varList.getD i [])
      (hne _ (getD_mem hi))
    rw [origNdim]
    omega
  have hlenle : (axesOf ((_simplify_orders varList).1.getD i [])).length
      ≤ (stridesOf varList (_simplify_orders varList).1 i).length := by
    rw [stridesOf]
    simp only [axesOf, List.length_map, List.length_range]
    exact hrowle
  rw [loopStructure_stride_getD varList hi, strideDictOf]
  rw [lookupExt_zip hknd hk hlenle]
  apply stridesOf_getElem?
  have h3 := hlenle
  rw [stridesOf] at h3
  simp only [axesOf, List.length_map, List.length_range] at h3 hklt
  omega

/-- Witness for the amended C2 on a single variable whose two axes merge:
the one surviving synthetic axis has stride `1`. -/
theorem _optimize_loop_structure_stride_rowmajor_simplified_witness :
    (∀ v ∈ ([[(0, 2), (1, 3)]] : St), (axesOf v).Nodup) ∧
    (∀ v ∈ ([[(0, 2), (1, 3)]] : St), v ≠ []) ∧
    lookupExt ((_optimize_loop_structure [[(0, 2), (1, 3)]]).stride_dicts.getD 0 []) 3
      = some 1 ∧
    (∀ i, i < ([[(0, 2), (1, 3)]] : St).length → ∀ k a,
      (axesOf ((_simplify_orders [[(0, 2), (1, 3)]]).1.getD i []))[k]? = some a →
      lookupExt ((_optimize_loop_structure [[(0, 2), (1, 3)]]).stride_dicts.getD i []) a
        = some (((shapesOf (_simplify_orders [[(0, 2), (1, 3)]]).1 i).drop (k + 1)).prod)) :=
  ⟨by decide, by decide, by decide,
   _optimize_loop_structure_stride_rowmajor_simplified _ (by decide) (by decide)⟩

end WebGL
